import Mathlib

/-!
Verification of the Vibource commit-history replay engine.

This file gives a shallow embedding of the core of the repository:

* `src/utils/fileTree.ts` — the file-tree state machine
  (`createFileTree`, `addFileToTree`, `removeFileFromTree`, `findFileInTree`,
  `applyCommitToTree`, `generateAuthorColor`, `getFileColor`, …);
* `src/services/git.ts` — the flattened-map tree differ
  (`walkTree`, `diffTrees`) over content-addressed git tree objects;
* the incremental tree differ (`diffTreesIncremental`, `collectAllFiles`,
  `readTreeSafe`) from the alternative git service implementation;
* `src/services/cache.ts` — tree-snapshot serialization
  (`serializeTree`, `deserializeTree`);
* `src/App.tsx` — the seek controller (`handleSeek`).

Modelling conventions:

* TypeScript objects become inductive values; the mutable tree is threaded
  functionally.  A function that mutates its argument returns the updated
  value; a function that can throw returns `Option`.
* JavaScript `Map`s are association lists in insertion order; `jsMapSet`
  mirrors `Map.set` (overwrite in place, append when fresh).
* git object ids are modelled by the content they address: `GitObj` equality
  plays the role of OID equality (equal OIDs iff equal content, the
  content-addressing contract stated in the spec's glossary).
* JavaScript `Date` values are carried as their ISO strings, so
  `toISOString`/`new Date(iso)` round-trip as the identity.
* `FileNode.parent` (a non-owning back reference, never used for traversal
  by any of the embedded functions) is omitted; `modifiedNodes` entries are
  identified by their path.
-/

/-! ## JavaScript map semantics (insertion-ordered association lists) -/

/-- `Map.get` / object-literal lookup: first binding for the key, if any. -/
def jsMapGet (m : List (String × α)) (k : String) : Option α :=
  (m.find? (fun p => p.1 == k)).map (fun p => p.2)

/-- `Map.set`: overwrite an existing binding in place, else append. -/
def jsMapSet (m : List (String × α)) (k : String) (v : α) : List (String × α) :=
  if m.any (fun p => p.1 == k) then
    m.map (fun p => if p.1 == k then (k, v) else p)
  else m ++ [(k, v)]

/-- `Map.has`. -/
def jsMapHas (m : List (String × α)) (k : String) : Bool :=
  m.any (fun p => p.1 == k)

/-- Update the value bound to `k` in place (models mutating a fetched object). -/
def jsMapUpdate (m : List (String × α)) (k : String) (f : α → α) : List (String × α) :=
  m.map (fun p => if p.1 == k then (p.1, f p.2) else p)

/-! ## Data model (`src/types.ts`) -/

inductive ChangeStatus where
  | added | modified | removed | renamed
deriving DecidableEq, Repr

structure FileChange where
  filename : String
  status : ChangeStatus
  additions : Nat
  deletions : Nat
  previousFilename : Option String := none
deriving DecidableEq, Repr

structure CommitAuthor where
  name : String
  email : String
  login : Option String := none
  avatarUrl : Option String := none
  date : String
deriving DecidableEq, Repr

structure Commit where
  sha : String
  message : String
  author : CommitAuthor
  files : List FileChange
deriving DecidableEq, Repr

structure Author where
  name : String
  email : String
  login : Option String := none
  avatarUrl : Option String := none
  commitCount : Nat
  color : String
deriving DecidableEq, Repr

inductive NodeType where
  | file | directory
deriving DecidableEq, Repr

inductive NodeStatus where
  | added | modified | removed | idle
deriving DecidableEq, Repr

/-- `FileNode` from `src/types.ts`, minus the visualization-only coordinates
and the `parent` back reference (see the header).  `children` is `none` for
file leaves (`undefined` in TypeScript) and `some` for directories — and, as
in the source, a file node can acquire a `children` array if
`addFileToTree` descends through it. -/
inductive FileNode where
  | mk (id name path : String) (type : NodeType) (children : Option (List FileNode))
       (lastModified : Option String) (lastAuthor : Option String)
       (status : Option NodeStatus) (color : Option String)

def FileNode.id : FileNode → String
  | .mk i _ _ _ _ _ _ _ _ => i

def FileNode.name : FileNode → String
  | .mk _ n _ _ _ _ _ _ _ => n

def FileNode.path : FileNode → String
  | .mk _ _ p _ _ _ _ _ _ => p

def FileNode.type : FileNode → NodeType
  | .mk _ _ _ t _ _ _ _ _ => t

def FileNode.children : FileNode → Option (List FileNode)
  | .mk _ _ _ _ c _ _ _ _ => c

def FileNode.lastModified : FileNode → Option String
  | .mk _ _ _ _ _ m _ _ _ => m

def FileNode.lastAuthor : FileNode → Option String
  | .mk _ _ _ _ _ _ a _ _ => a

def FileNode.status : FileNode → Option NodeStatus
  | .mk _ _ _ _ _ _ _ s _ => s

def FileNode.color : FileNode → Option String
  | .mk _ _ _ _ _ _ _ _ c => c

/-- Replace the children array (models `current.children = …`). -/
def FileNode.setChildren : FileNode → Option (List FileNode) → FileNode
  | .mk i n p t _ m a s c, cs => .mk i n p t cs m a s c

/-- `node.status = st` (mutation of the status tag alone). -/
def FileNode.setStatus : FileNode → NodeStatus → FileNode
  | .mk i n p t cs m a _ c, st => .mk i n p t cs m a (some st) c

/-- `node.status = st; node.lastModified = d; node.lastAuthor = k`. -/
def FileNode.stamp : FileNode → NodeStatus → String → String → FileNode
  | .mk i n p t cs _ _ _ c, st, d, k => .mk i n p t cs (some d) (some k) (some st) c

/-! ## Colors (`generateAuthorColor`, `getFileExtension`, `getFileColor`) -/

/-- JavaScript `ToInt32`: reduce an integer to the signed 32-bit range. -/
def toInt32 (n : Int) : Int :=
  let m := n % 4294967296
  if m < 2147483648 then m else m - 4294967296

/-- `generateAuthorColor` from `src/utils/fileTree.ts`:
`hash = name.charCodeAt(i) + ((hash << 5) - hash)` folded over the name,
then `hsl(abs(hash) % 360, 70%, 60%)`.  (`charCodeAt` is modelled by the
character's code point; the two agree on the basic multilingual plane.) -/
def generateAuthorColor (name : String) : String :=
  let hash : Int := name.data.foldl
    (fun hash c => (c.toNat : Int) + (toInt32 (toInt32 hash * 32) - hash)) 0
  let hue : Nat := hash.natAbs % 360
  "hsl(" ++ toString hue ++ ", 70%, 60%)"

/-- JavaScript `s.split(sep)` for a one-character separator, over the
string's character list (so that it evaluates by kernel reduction). -/
def splitChar (sep : Char) (s : String) : List String :=
  (s.data.splitOn sep).map (fun cs => String.mk cs)

/-- `filepath.split('/')`. -/
def splitPath (s : String) : List String :=
  splitChar '/' s

/-- `s.toLowerCase()`, character by character. -/
def toLowerStr (s : String) : String :=
  String.mk (s.data.map Char.toLower)

/-- `getFileExtension`: text after the last dot, lower-cased, or `""`. -/
def getFileExtension (filename : String) : String :=
  let parts := splitChar '.' filename
  if parts.length > 1 then toLowerStr (parts.getLastD "") else ""

/-- The extension→color record from `getFileColor`. -/
def fileColors : List (String × String) :=
  [("js", "#f7df1e"), ("jsx", "#61dafb"), ("ts", "#3178c6"), ("tsx", "#61dafb"),
   ("py", "#3776ab"), ("rs", "#dea584"), ("go", "#00add8"),
   ("java", "#b07219"), ("kt", "#a97bff"),
   ("c", "#555555"), ("cpp", "#f34b7d"), ("h", "#555555"), ("hpp", "#f34b7d"),
   ("html", "#e34c26"), ("css", "#563d7c"), ("scss", "#c6538c"), ("less", "#1d365d"),
   ("json", "#292929"), ("yaml", "#cb171e"), ("yml", "#cb171e"), ("xml", "#0060ac"),
   ("md", "#083fa1"), ("txt", "#888888"),
   ("toml", "#9c4221"), ("ini", "#888888"), ("env", "#ecd53f"),
   ("sh", "#89e051"), ("bash", "#89e051"), ("zsh", "#89e051"),
   ("", "#8da0cb")]

/-- `getFileColor`: `colors[ext] || '#8da0cb'`. -/
def getFileColor (filename : String) : String :=
  match jsMapGet fileColors (getFileExtension filename) with
  | some c => c
  | none => "#8da0cb"

/-! ## Tree construction and navigation (`src/utils/fileTree.ts`) -/

/-- `createFileTree()`. -/
def createFileTree : FileNode :=
  .mk "root" "root" "" .directory (some []) none none none none

/-- First child with the given name (`children.find(c => c.name === part)`). -/
def findByName (cs : List FileNode) (nm : String) : Option FileNode :=
  cs.find? (fun c => c.name == nm)

/-- Index of the first child with the given name (`findIndex`). -/
def findIdxByName (cs : List FileNode) (nm : String) : Option Nat :=
  cs.findIdx? (fun c => c.name == nm)

/-- Replace the first child carrying the given name (the in-place mutation of
the child object found by `find`). -/
def replaceFirstByName : List FileNode → String → FileNode → List FileNode
  | [], _, _ => []
  | c :: cs, nm, c' =>
    if c.name == nm then c' :: cs else c :: replaceFirstByName cs nm c'

/-- Remove the first child whose `id` matches
(`findIndex(c => c.id === parent.id)` followed by `splice`); no match leaves
the list unchanged (`idx !== -1` guard). -/
def eraseFirstById : List FileNode → String → List FileNode
  | [], _ => []
  | c :: cs, i => if c.id == i then cs else c :: eraseFirstById cs i

/-- The loop body of `addFileToTree`: walk/extend the tree along `parts`,
`done` being the prefix already consumed (so `currentPath` is
`parts.slice(0, i + 1).join('/')`).  Returns the updated subtree and the
leaf file node (`null` only on an empty parts list, which `split` never
produces). -/
def addAux (node : FileNode) (done : List String) (parts : List String) :
    FileNode × Option FileNode :=
  match parts with
  | [] => (node, none)
  | part :: rest =>
    let isFile := rest.isEmpty
    let currentPath := String.intercalate "/" (done ++ [part])
    let cs := node.children.getD []
    match findByName cs part with
    | some child =>
      if isFile then (node.setChildren (some cs), some child)
      else
        let r := addAux child (done ++ [part]) rest
        (node.setChildren (some (replaceFirstByName cs part r.1)), r.2)
    | none =>
      let newChild : FileNode :=
        .mk currentPath part currentPath (if isFile then .file else .directory)
          (if isFile then none else some []) none none none
          (if isFile then some (getFileColor part) else none)
      if isFile then (node.setChildren (some (cs ++ [newChild])), some newChild)
      else
        let r := addAux newChild (done ++ [part]) rest
        (node.setChildren (some (cs ++ [r.1])), r.2)

/-- `addFileToTree(root, filepath)`. -/
def addFileToTree (root : FileNode) (filepath : String) : FileNode × Option FileNode :=
  addAux root [] (splitPath filepath)

/-- The empty-directory test used by the cleanup loop of
`removeFileFromTree`: `parent.children?.length === 0 && parent.type === 'directory'`. -/
def cleanupEmptyDir (n : FileNode) : Bool :=
  (match n.children with
   | some [] => true
   | _ => false) && n.type == .directory

/-- `removeFileFromTree`, recursively: navigate to the parent of the target,
splice the target out, and — unwinding — cascade-delete ancestors that
became empty directories (deepest first, root excluded), matching them by
`id` as the source does.  Every failure exit happens before any mutation,
so the original node is returned with `false`. -/
def removeAux : FileNode → List String → FileNode × Bool
  | node, [] => (node, false)
  | node, [fileName] =>
    (match node.children with
     | none => (node, false)
     | some cs =>
       match findIdxByName cs fileName with
       | none => (node, false)
       | some i => (node.setChildren (some (cs.eraseIdx i)), true))
  | node, part :: rest =>
    match node.children with
    | none => (node, false)
    | some cs =>
      match findByName cs part with
      | none => (node, false)
      | some child =>
        let r := removeAux child rest
        if r.2 then
          let cs1 := replaceFirstByName cs part r.1
          let cs2 := if cleanupEmptyDir r.1 then eraseFirstById cs1 r.1.id else cs1
          (node.setChildren (some cs2), true)
        else (node, false)

/-- `removeFileFromTree(root, filepath)`: updated tree plus success flag. -/
def removeFileFromTree (root : FileNode) (filepath : String) : FileNode × Bool :=
  removeAux root (splitPath filepath)

/-- The loop of `findFileInTree`: descend through every part by name. -/
def findAux : FileNode → List String → Option FileNode
  | node, [] => some node
  | node, part :: rest =>
    match node.children with
    | none => none
    | some cs =>
      match findByName cs part with
      | none => none
      | some child => findAux child rest

/-- `findFileInTree(root, filepath)`. -/
def findFileInTree (root : FileNode) (filepath : String) : Option FileNode :=
  findAux root (splitPath filepath)

/-- Apply `f` to the node reached by descending through `parts`
(the pure rendering of mutating a node object found inside the tree);
a failed descent leaves the tree unchanged. -/
def updateInTree (node : FileNode) (parts : List String) (f : FileNode → FileNode) :
    FileNode :=
  match parts with
  | [] => f node
  | part :: rest =>
    match node.children with
    | none => node
    | some cs =>
      match findByName cs part with
      | none => node
      | some child => node.setChildren (some (replaceFirstByName cs part (updateInTree child rest f)))

/-! ## The state machine (`applyCommitToTree`) -/

/-- One iteration of the `for (const file of commit.files)` loop of
`applyCommitToTree`.  The state is the tree plus the `modifiedNodes`
accumulator (nodes are recorded by path, see the header).  Stamps are
applied to the node located by the same name-descent that produced it. -/
def applyFileChange (commit : Commit) (authorKey : String)
    (st : FileNode × List String) (file : FileChange) : FileNode × List String :=
  let root := st.1
  let modified := st.2
  let parts := splitPath file.filename
  match file.status with
  | .added =>
    let r := addFileToTree root file.filename
    (match r.2 with
     | some _ =>
       (updateInTree r.1 parts (fun n => n.stamp .added commit.author.date authorKey),
        modified ++ [file.filename])
     | none => (r.1, modified))
  | .modified =>
    (match findFileInTree root file.filename with
     | some _ =>
       (updateInTree root parts (fun n => n.stamp .modified commit.author.date authorKey),
        modified ++ [file.filename])
     | none =>
       let r := addFileToTree root file.filename
       match r.2 with
       | some _ =>
         (updateInTree r.1 parts (fun n => n.stamp .modified commit.author.date authorKey),
          modified ++ [file.filename])
       | none => (r.1, modified))
  | .removed =>
    (match findFileInTree root file.filename with
     | some _ =>
       (updateInTree root parts (fun n => n.setStatus .removed), modified ++ [file.filename])
     | none => (root, modified))
  | .renamed =>
    let root1 := match file.previousFilename with
      | some prev => if prev == "" then root else (removeFileFromTree root prev).1
      | none => root
    let r := addFileToTree root1 file.filename
    (match r.2 with
     | some _ =>
       (updateInTree r.1 parts (fun n => n.stamp .modified commit.author.date authorKey),
        modified ++ [file.filename])
     | none => (r.1, modified))

/-- Result record of `applyCommitToTree`: the mutated tree, the mutated
author map, and the returned `modifiedNodes` (by path). -/
structure ApplyResult where
  tree : FileNode
  authors : List (String × Author)
  modified : List String

/-- `applyCommitToTree(root, commit, authors)`:
author bookkeeping (`email || name` key, create-on-first-sight with a
name-derived color, then `commitCount++`), followed by the file-change loop. -/
def applyCommitToTree (root : FileNode) (commit : Commit)
    (authors : List (String × Author)) : ApplyResult :=
  let authorKey := if commit.author.email == "" then commit.author.name else commit.author.email
  let authors1 := match jsMapGet authors authorKey with
    | none =>
      jsMapSet authors authorKey
        { name := commit.author.name, email := commit.author.email,
          login := commit.author.login, avatarUrl := commit.author.avatarUrl,
          commitCount := 0, color := generateAuthorColor commit.author.name }
    | some _ => authors
  let authors2 := jsMapUpdate authors1 authorKey
    (fun a => { a with commitCount := a.commitCount + 1 })
  let r := commit.files.foldl (applyFileChange commit authorKey) (root, [])
  ⟨r.1, authors2, r.2⟩

/-! ## Snapshots (`src/services/cache.ts`) -/

/-- `SerializableFileNode`: the acyclic copy stored in a tree snapshot. -/
inductive SerializableFileNode where
  | mk (id name path : String) (type : NodeType)
       (children : Option (List SerializableFileNode))
       (lastModified : Option String) (lastAuthor : Option String)
       (status : Option NodeStatus) (color : Option String)

mutual
/-- `serializeTree`: drop the parent back reference (absent from the model
already) and store `lastModified` as its ISO string (the identity here,
dates being carried as strings). -/
def serializeTree : FileNode → SerializableFileNode
  | .mk i n p t cs m a s c =>
    .mk i n p t
      (match cs with
       | none => none
       | some l => some (serializeList l)) m a s c

/-- `node.children?.map(serializeTree)`, elementwise. -/
def serializeList : List FileNode → List SerializableFileNode
  | [] => []
  | x :: xs => serializeTree x :: serializeList xs
end

mutual
/-- `deserializeTree`: rebuild a `FileNode` (parent links being implicit in
the model, this is the structural inverse). -/
def deserializeTree : SerializableFileNode → FileNode
  | .mk i n p t cs m a s c =>
    .mk i n p t
      (match cs with
       | none => none
       | some l => some (deserializeList l)) m a s c

/-- `node.children.map(child => deserializeTree(child, result))`, elementwise. -/
def deserializeList : List SerializableFileNode → List FileNode
  | [] => []
  | x :: xs => deserializeTree x :: deserializeList xs
end

/-! ## The seek controller (`handleSeek` in `src/App.tsx`) -/

/-- One replay step: feed a commit to the state machine, keeping the tree
and author map. -/
def replayStep (st : FileNode × List (String × Author)) (c : Commit) :
    FileNode × List (String × Author) :=
  let r := applyCommitToTree st.1 c st.2
  (r.tree, r.authors)

/-- `handleSeek(targetIndex)`: reset to the empty tree and empty author map,
then `for (let i = 0; i <= targetIndex; i++) applyCommitToTree(tree, commits[i], authors)`.
Reading past the end of the commit array yields `undefined`, on which
`applyCommitToTree` throws (`commit.author` of `undefined`); the exception
is modelled by `none`. -/
def handleSeek (commits : List Commit) (targetIndex : Nat) :
    Option (FileNode × List (String × Author)) :=
  (List.range (targetIndex + 1)).foldlM
    (fun st i =>
      match commits[i]? with
      | none => none
      | some c => some (replayStep st c))
    (createFileTree, [])

/-- The spec's reference behavior for `seek(k)`: "a full replay of commits
`[0..k]` from empty state" — defined for target indices inside the commit
list, from `createFileTree` and the empty author map. -/
def specReplay (commits : List Commit) (k : Nat) :
    Option (FileNode × List (String × Author)) :=
  if k < commits.length then
    some ((commits.take (k + 1)).foldl replayStep (createFileTree, []))
  else none

/-- Modelled from the spec: the snapshot-based reconstruction drive of
§4.4 is absent from `src/` (`src/services/cache.ts` stores and looks up
snapshots, but no code under `src/` replays from one).  Per the spec: the
snapshot taken at commit index `j` is the serialized tree plus author map
of the replay state after commits `[0..j]`; reconstruction deserializes it
and applies commits `[j+1..k]` in order using the state machine. -/
def seekFromSnapshot (commits : List Commit) (j k : Nat) :
    Option (FileNode × List (String × Author)) :=
  match specReplay commits j with
  | none => none
  | some st =>
    let restored := deserializeTree (serializeTree st.1)
    some (((commits.drop (j + 1)).take (k - j)).foldl replayStep (restored, st.2))

/-! ## Content-addressed git tree objects

The object store is modelled by the objects themselves: a `GitObj` stands
for the content its OID addresses, so `GitObj` equality coincides with OID
equality (glossary: "equal OIDs imply equal content"; and git's hashing
gives each content one OID).  A tree object is its listing of named
entries; a blob is identified by its blob OID. -/

inductive GitObj where
  | blob (oid : String)
  | tree (entries : List (String × GitObj))

mutual
def GitObj.decEq : (a b : GitObj) → Decidable (a = b)
  | .blob a, .blob b =>
    if h : a = b then .isTrue (by rw [h]) else .isFalse (by simp [h])
  | .blob _, .tree _ => .isFalse (by simp)
  | .tree _, .blob _ => .isFalse (by simp)
  | .tree as, .tree bs =>
    match GitObj.decEqEntries as bs with
    | .isTrue h => .isTrue (by rw [h])
    | .isFalse h => .isFalse (by simpa using h)

def GitObj.decEqEntries : (as bs : List (String × GitObj)) → Decidable (as = bs)
  | [], [] => .isTrue rfl
  | [], _ :: _ => .isFalse (by simp)
  | _ :: _, [] => .isFalse (by simp)
  | (n, o) :: as, (m, p) :: bs =>
    if hn : n = m then
      match GitObj.decEq o p, GitObj.decEqEntries as bs with
      | .isTrue h1, .isTrue h2 => .isTrue (by rw [hn, h1, h2])
      | .isFalse h1, _ => .isFalse (by simp [h1])
      | _, .isFalse h2 => .isFalse (by simp [h2])
    else .isFalse (by simp [hn])
end

instance : DecidableEq GitObj := GitObj.decEq

/-- `basePath ? `${basePath}/${entry.path}` : entry.path` — the path-joining
idiom shared by `walkTree`, `collectAllFiles` and `diffTreesIncremental`. -/
def joinPath (basePath nm : String) : String :=
  if basePath = "" then nm else basePath ++ "/" ++ nm

/-- `readTreeSafe`: the listing of a tree object; reading anything that is
not a tree throws and is caught, yielding the empty listing (fail soft). -/
def readTreeSafe : GitObj → List (String × GitObj)
  | .blob _ => []
  | .tree es => es

/-! ## The flattened-map strategy (`walkTree` / `diffTrees`, `src/services/git.ts`) -/

mutual
/-- The inner `walk(oid, basePath)` of `walkTree`: record every reachable
blob under its full path in the shared path→blob-OID map.  (Subtree walks
are awaited in parallel in the source and merged into one map; the spec
notes the visitation order is insignificant, and the model walks entries
sequentially in listing order.)  Reading a non-tree fails and is ignored. -/
def walkAux (oid : GitObj) (basePath : String) (files : List (String × String)) :
    List (String × String) :=
  match oid with
  | .blob _ => files
  | .tree es => walkEntries es basePath files

def walkEntries : List (String × GitObj) → String → List (String × String) →
    List (String × String)
  | [], _, files => files
  | (nm, obj) :: rest, basePath, files =>
    match obj with
    | .blob b => walkEntries rest basePath (jsMapSet files (joinPath basePath nm) b)
    | .tree _ => walkEntries rest basePath (walkAux obj (joinPath basePath nm) files)
end

/-- `walkTree(lfs, dir, treeOid)`: flatten a tree object into its
path→blob-OID map. -/
def walkTree (treeOid : GitObj) : List (String × String) :=
  walkAux treeOid "" []

/-- `diffTrees(oldTree, newTree)` from `src/services/git.ts`: compare two
flattened maps.  A new path missing from the old map — or bound to a falsy
(empty) OID, as `!oldOid` tests — is `added`; bound to a different OID,
`modified`; an old path absent from the new map is `removed`. -/
def diffTrees (oldTree newTree : List (String × String)) : List FileChange :=
  let changes := newTree.foldl
    (fun changes pr =>
      match jsMapGet oldTree pr.1 with
      | none => changes ++ [⟨pr.1, .added, 0, 0, none⟩]
      | some oldOid =>
        if oldOid = "" then changes ++ [⟨pr.1, .added, 0, 0, none⟩]
        else if oldOid ≠ pr.2 then changes ++ [⟨pr.1, .modified, 0, 0, none⟩]
        else changes)
    []
  oldTree.foldl
    (fun changes pr =>
      if jsMapHas newTree pr.1 then changes
      else changes ++ [⟨pr.1, .removed, 0, 0, none⟩])
    changes

/-! ## The incremental strategy (`diffTreesIncremental`, unnamed git service) -/

mutual
/-- `collectAllFiles(lfs, dir, treeOid, basePath)`: all blob paths reachable
from a tree object (via `readTreeSafe`, inlined in the match). -/
def collectAllFiles (treeOid : GitObj) (basePath : String) : List String :=
  match treeOid with
  | .blob _ => []
  | .tree es => collectEntries es basePath

def collectEntries : List (String × GitObj) → String → List String
  | [], _ => []
  | (nm, obj) :: rest, basePath =>
    (match obj with
     | .blob _ => [joinPath basePath nm]
     | .tree _ => collectAllFiles obj (joinPath basePath nm)) ++ collectEntries rest basePath
end

/-- `new Map(tree.map(e => [e.path, e]))`: key each entry by its name
(`Map` construction is repeated `set`, so later duplicates overwrite). -/
def entryMap (es : List (String × GitObj)) : List (String × GitObj) :=
  es.foldl (fun m e => jsMapSet m e.1 e.2) []

/-- The "check for removed entries" loop of `diffTreesIncremental`: old
entries whose name is absent from the new map contribute `removed` changes
(all reachable blobs, for a subtree). -/
def removedPass (oldTree : List (String × GitObj)) (newMap : List (String × GitObj))
    (basePath : String) : List FileChange :=
  match oldTree with
  | [] => []
  | (nm, obj) :: rest =>
    (if jsMapHas newMap nm then []
     else
       let fullPath := joinPath basePath nm
       match obj with
       | .blob _ => [⟨fullPath, .removed, 0, 0, none⟩]
       | .tree _ => (collectAllFiles obj fullPath).map (fun f => ⟨f, .removed, 0, 0, none⟩))
    ++ removedPass rest newMap basePath

mutual
/-- `diffTreesIncremental(lfs, dir, oldTreeOid, newTreeOid, basePath)`:
identity short-circuit on equal OIDs, then read both listings
(`readTreeSafe` is inlined in the match on `newTreeOid`; a null old OID
reads as the empty listing), walk the new entries (`newPass`), and append
the removed-entries pass. -/
def diffTreesIncremental (oldTreeOid : Option GitObj) (newTreeOid : GitObj)
    (basePath : String) : List FileChange :=
  if oldTreeOid = some newTreeOid then []
  else
    let oldTree := match oldTreeOid with
      | some o => readTreeSafe o
      | none => []
    match newTreeOid with
    | .blob _ => removedPass oldTree (entryMap []) basePath
    | .tree newTree =>
      newPass newTree (entryMap oldTree) basePath ++ removedPass oldTree (entryMap newTree) basePath

/-- The "check entries in new tree" loop of `diffTreesIncremental`:
per new entry — absent from the old map: `added` (all blobs, for a
subtree); present with an equal OID: skip; blob/blob: `modified`;
tree/tree: recurse; kind changed: full remove of the old shape then full
add of the new shape. -/
def newPass (entries : List (String × GitObj)) (oldMap : List (String × GitObj))
    (basePath : String) : List FileChange :=
  match entries with
  | [] => []
  | (nm, obj) :: rest =>
    let fullPath := joinPath basePath nm
    (match jsMapGet oldMap nm with
     | none =>
       match obj with
       | .blob _ => [⟨fullPath, .added, 0, 0, none⟩]
       | .tree _ => (collectAllFiles obj fullPath).map (fun f => ⟨f, .added, 0, 0, none⟩)
     | some oldEntry =>
       if oldEntry = obj then []
       else
         match obj, oldEntry with
         | .blob _, .blob _ => [⟨fullPath, .modified, 0, 0, none⟩]
         | .tree _, .tree _ => diffTreesIncremental (some oldEntry) obj fullPath
         | _, _ =>
           (match oldEntry with
            | .blob _ => [⟨fullPath, .removed, 0, 0, none⟩]
            | .tree _ => (collectAllFiles oldEntry fullPath).map (fun f => ⟨f, .removed, 0, 0, none⟩))
           ++ (match obj with
            | .blob _ => [⟨fullPath, .added, 0, 0, none⟩]
            | .tree _ => (collectAllFiles obj fullPath).map (fun f => ⟨f, .added, 0, 0, none⟩)))
    ++ newPass rest oldMap basePath
end

/-! ## Well-formed git trees

A git tree object never lists two entries with the same name, names never
contain `/` (they are single path components) and are nonempty, and OIDs
are nonempty hex strings.  `wfTree` captures exactly this input space. -/

/-- A legal tree-entry name: nonempty, without a path separator. -/
def goodName (nm : String) : Bool :=
  nm != "" && !(nm.data.contains '/')

mutual
/-- Well-formedness of a git object (see section comment). -/
def wfTree : GitObj → Bool
  | .blob oid => oid != ""
  | .tree es =>
    decide ((es.map Prod.fst).Nodup) && es.all (fun e => goodName e.1) && wfEntries es

def wfEntries : List (String × GitObj) → Bool
  | [] => true
  | (_, o) :: rest => wfTree o && wfEntries rest
end

/-! ## Semantic view of a tree object: blob paths as segment lists -/

theorem sizeOf_snd_lt_of_mem {e : String × GitObj} {es : List (String × GitObj)}
    (h : e ∈ es) : sizeOf e.2 < sizeOf (GitObj.tree es) := by
  induction es with
  | nil => cases h
  | cons hd tl ih =>
    rw [List.mem_cons] at h
    rcases h with h | h
    · subst h
      obtain ⟨n, o⟩ := e
      simp
      omega
    · have := ih h
      simp at this ⊢
      omega

/-- Structural induction over git objects, giving the inductive hypothesis
for every entry of a tree listing. -/
def GitObj.inductionOn {motive : GitObj → Prop}
    (hblob : ∀ oid, motive (.blob oid))
    (htree : ∀ es, (∀ e ∈ es, motive e.2) → motive (.tree es)) :
    ∀ t, motive t
  | .blob oid => hblob oid
  | .tree es => htree es (fun e he =>
      GitObj.inductionOn hblob htree e.2)
  termination_by t => sizeOf t
  decreasing_by exact sizeOf_snd_lt_of_mem he

mutual
/-- Every reachable blob of a git object, as (path-segment list, blob OID)
pairs: the mathematical reading of the tree object, against which both
diff strategies are measured. -/
def segKeys : GitObj → List (List String × String)
  | .blob _ => []
  | .tree es => segEntries es

def segEntries : List (String × GitObj) → List (List String × String)
  | [] => []
  | (n, o) :: rest =>
    (match o with
     | .blob b => [([n], b)]
     | .tree _ => (segKeys o).map (fun p => (n :: p.1, p.2))) ++ segEntries rest
end

/-- Join path segments onto a base path the way the differs do. -/
def pathOfSegs (basePath : String) (segs : List String) : String :=
  segs.foldl joinPath basePath

/-- The blob map of a git object rooted at `basePath`, with string paths. -/
def blobsB (t : GitObj) (basePath : String) : List (String × String) :=
  (segKeys t).map (fun p => (pathOfSegs basePath p.1, p.2))

/-- The blob map of a listing of entries rooted at `basePath`. -/
def blobsEntries (es : List (String × GitObj)) (basePath : String) :
    List (String × String) :=
  (segEntries es).map (fun p => (pathOfSegs basePath p.1, p.2))

/-! ## Paths of good segment lists are injective -/

/-- Character-level rendering of a nonempty segment list joined by `/`. -/
def segsData : List String → List Char
  | [] => []
  | [s] => s.data
  | s :: rest => s.data ++ '/' :: segsData rest

/-- Per-entry contribution to `segEntries`. -/
def entryChunk : String × GitObj → List (List String × String)
  | (n, o) =>
    match o with
    | .blob b => [([n], b)]
    | .tree _ => (segKeys o).map (fun p => (n :: p.1, p.2))

/-- Per-entry contribution to the blob map rooted at `basePath`. -/
def blobChunk (basePath : String) : String × GitObj → List (String × String)
  | (n, o) =>
    match o with
    | .blob b => [(joinPath basePath n, b)]
    | .tree _ => blobsB o (joinPath basePath n)

/-- The change (if any) contributed by the new-map loop of `diffTrees`. -/
def addModChange (oldTree : List (String × String)) (pr : String × String) :
    Option FileChange :=
  match jsMapGet oldTree pr.1 with
  | none => some ⟨pr.1, .added, 0, 0, none⟩
  | some oldOid =>
    if oldOid = "" then some ⟨pr.1, .added, 0, 0, none⟩
    else if oldOid ≠ pr.2 then some ⟨pr.1, .modified, 0, 0, none⟩
    else none

/-- The change (if any) contributed by the old-map loop of `diffTrees`. -/
def removedChange (newTree : List (String × String)) (pr : String × String) :
    Option FileChange :=
  if jsMapHas newTree pr.1 then none else some ⟨pr.1, .removed, 0, 0, none⟩

/-- The old listing read by `diffTreesIncremental` (`null` reads as empty). -/
def readTreeSafeOpt : Option GitObj → List (String × GitObj)
  | none => []
  | some o => readTreeSafe o

/-- Blob map of an optional old tree (`null` has no blobs). -/
def blobsOpt : Option GitObj → String → List (String × String)
  | none, _ => []
  | some o, base => blobsB o base

/-- Well-formedness of an optional old tree. -/
def wfOpt : Option GitObj → Bool
  | none => true
  | some o => wfTree o

/-- One iteration of the new-entries loop, as `newPass` computes it. -/
def newChunk (oldMap : List (String × GitObj)) (basePath n : String) (obj : GitObj) :
    List FileChange :=
  let fullPath := joinPath basePath n
  match jsMapGet oldMap n with
  | none =>
    match obj with
    | .blob _ => [⟨fullPath, .added, 0, 0, none⟩]
    | .tree _ => (collectAllFiles obj fullPath).map (fun f => ⟨f, .added, 0, 0, none⟩)
  | some oldEntry =>
    if oldEntry = obj then []
    else
      match obj, oldEntry with
      | .blob _, .blob _ => [⟨fullPath, .modified, 0, 0, none⟩]
      | .tree _, .tree _ => diffTreesIncremental (some oldEntry) obj fullPath
      | _, _ =>
        (match oldEntry with
         | .blob _ => [⟨fullPath, .removed, 0, 0, none⟩]
         | .tree _ => (collectAllFiles oldEntry fullPath).map
             (fun f => ⟨f, .removed, 0, 0, none⟩))
        ++ (match obj with
         | .blob _ => [⟨fullPath, .added, 0, 0, none⟩]
         | .tree _ => (collectAllFiles obj fullPath).map
             (fun f => ⟨f, .added, 0, 0, none⟩))

/-- One iteration of the removed-entries loop, as `removedPass` computes it. -/
def remChunk (newMap : List (String × GitObj)) (basePath : String)
    (e : String × GitObj) : List FileChange :=
  if jsMapHas newMap e.1 then []
  else
    match e.2 with
    | .blob _ => [⟨joinPath basePath e.1, .removed, 0, 0, none⟩]
    | .tree _ => (collectAllFiles e.2 (joinPath basePath e.1)).map
        (fun f => ⟨f, .removed, 0, 0, none⟩)

/-- The chunk the incremental differ's new-entries loop routes through the
old entry map at a given name. -/
def oldLookupChunk (oldEntries : List (String × GitObj)) (base : String)
    (R : String × String → Option FileChange) (m : String) : List FileChange :=
  match jsMapGet oldEntries m with
  | none => []
  | some o' => (blobChunk base (m, o')).filterMap R

/-- The flat blob map used by the flattened-map differ when the old tree
may be absent (a commit with no parent diffs against the empty map). -/
def walkTreeOpt : Option GitObj → List (String × String)
  | none => []
  | some t => walkTree t

mutual
/-- A node with its transient stamps erased: what remains is the structural
content — id, name, path, type, color and the (recursively stripped)
children. -/
def stripTags : FileNode → FileNode
  | .mk i n p t cs _ _ _ c =>
    .mk i n p t
      (match cs with
       | none => none
       | some l => some (stripTagsList l)) none none none c

def stripTagsList : List FileNode → List FileNode
  | [] => []
  | x :: xs => stripTags x :: stripTagsList xs
end

theorem sizeOf_child_lt_of_mem {x : FileNode} {l : List FileNode}
    (h : x ∈ l) {i n p : String} {t : NodeType} {m a : Option String}
    {s : Option NodeStatus} {c : Option String} :
    sizeOf x < sizeOf (FileNode.mk i n p t (some l) m a s c) := by
  have h1 := List.sizeOf_lt_of_mem h
  simp
  omega

/-- Structural induction over file nodes, giving the inductive hypothesis
for every child. -/
def FileNode.inductionOn {motive : FileNode → Prop}
    (h : ∀ i n p t cs m a s c,
      (∀ l, cs = some l → ∀ x ∈ l, motive x) →
      motive (.mk i n p t cs m a s c)) : ∀ nd, motive nd
  | .mk i n p t cs m a s c =>
    h i n p t cs m a s c (fun l hl x hx => FileNode.inductionOn h x)
  termination_by nd => sizeOf nd
  decreasing_by
    subst hl
    exact sizeOf_child_lt_of_mem hx

mutual
/-- The paths of all strict descendants of a node, in child order. -/
def pathsOf : FileNode → List String
  | .mk _ _ _ _ cs _ _ _ _ =>
    match cs with
    | none => []
    | some l => pathsOfList l

def pathsOfList : List FileNode → List String
  | [] => []
  | x :: xs => (x.path :: pathsOf x) ++ pathsOfList xs
end

mutual
/-- No node of this subtree (itself included) is an empty directory. -/
def cleanTree : FileNode → Bool
  | .mk i nm p t cs m a s c =>
    (!cleanupEmptyDir (.mk i nm p t cs m a s c)) &&
    (match cs with
     | none => true
     | some l => cleanList l)

def cleanList : List FileNode → Bool
  | [] => true
  | x :: xs => cleanTree x && cleanList xs
end

/-- No strict descendant of the node is an empty directory (the node itself
— the root — is exempt). -/
def rootClean (root : FileNode) : Bool :=
  match root.children with
  | none => true
  | some l => cleanList l

mutual
/-- Sibling `id`s are pairwise distinct throughout the subtree (the
well-formedness the cleanup loop's `findIndex(c => c.id === parent.id)`
splice relies on). -/
def idsOk : FileNode → Bool
  | .mk _ _ _ _ cs _ _ _ _ =>
    match cs with
    | none => true
    | some l => decide ((l.map FileNode.id).Nodup) && idsOkList l

def idsOkList : List FileNode → Bool
  | [] => true
  | x :: xs => idsOk x && idsOkList xs
end

theorem goodName_spec {s : String} (h : goodName s = true) :
    s ≠ "" ∧ '/' ∉ s.data := by
  unfold goodName at h
  simp only [Bool.and_eq_true, bne_iff_ne, Bool.not_eq_true'] at h
  refine ⟨h.1, fun hm => ?_⟩
  have hc : s.data.contains '/' = true := by
    simpa [List.contains] using List.elem_eq_true_of_mem hm
  simp only [hc, Bool.not_true] at h
  simp at h

theorem noslash_append_cons_eq {xs as : List Char} :
    ∀ {ys bs : List Char}, '/' ∉ xs → '/' ∉ ys →
      xs ++ '/' :: as = ys ++ '/' :: bs → xs = ys ∧ as = bs := by
  induction xs with
  | nil =>
    intro ys bs _ hy h
    cases ys with
    | nil => simpa using h
    | cons y ys =>
      simp only [List.nil_append, List.cons_append, List.cons.injEq] at h
      exact absurd (h.1 ▸ List.mem_cons_self y ys) hy
  | cons x xs ih =>
    intro ys bs hx hy h
    cases ys with
    | nil =>
      simp only [List.nil_append, List.cons_append, List.cons.injEq] at h
      exact absurd (h.1.symm ▸ List.mem_cons_self x xs) hx
    | cons y ys =>
      simp only [List.cons_append, List.cons.injEq] at h
      obtain ⟨rfl, h⟩ := h
      have := ih (by simp at hx; exact hx.2) (by simp at hy; exact hy.2) h
      exact ⟨by rw [this.1], this.2⟩

theorem slash_mem_segsData_cons_cons (s t : String) (rest : List String) :
    '/' ∈ segsData (s :: t :: rest) := by
  simp [segsData]

theorem segsData_inj : ∀ (r₁ r₂ : List String),
    (∀ s ∈ r₁, goodName s = true) → (∀ s ∈ r₂, goodName s = true) →
    segsData r₁ = segsData r₂ → r₁ = r₂ := by
  intro r₁
  induction r₁ with
  | nil =>
    intro r₂ _ hg₂ h
    cases r₂ with
    | nil => rfl
    | cons s rest =>
      cases rest with
      | nil =>
        exfalso
        have hs := goodName_spec (hg₂ s (by simp))
        simp only [segsData] at h
        exact hs.1 (String.ext h.symm)
      | cons t rest' =>
        exfalso
        have := slash_mem_segsData_cons_cons s t rest'
        rw [← h] at this
        simp [segsData] at this
  | cons s rest ih =>
    intro r₂ hg₁ hg₂ h
    cases rest with
    | nil =>
      cases r₂ with
      | nil =>
        exfalso
        have hs := goodName_spec (hg₁ s (by simp))
        simp only [segsData] at h
        exact hs.1 (String.ext h)
      | cons t rest₂ =>
        cases rest₂ with
        | nil =>
          simp only [segsData] at h
          rw [String.ext h]
        | cons u rest₂' =>
          exfalso
          have := slash_mem_segsData_cons_cons t u rest₂'
          rw [← h] at this
          exact (goodName_spec (hg₁ s (by simp))).2 this
    | cons t rest' =>
      cases r₂ with
      | nil =>
        exfalso
        have := slash_mem_segsData_cons_cons s t rest'
        rw [h] at this
        simp [segsData] at this
      | cons u rest₂ =>
        cases rest₂ with
        | nil =>
          exfalso
          have := slash_mem_segsData_cons_cons s t rest'
          rw [h] at this
          exact (goodName_spec (hg₂ u (by simp))).2 this
        | cons v rest₂' =>
          simp only [segsData] at h
          have h' := noslash_append_cons_eq
            (goodName_spec (hg₁ s (by simp))).2
            (goodName_spec (hg₂ u (by simp))).2 h
          have := ih (v :: rest₂')
            (fun x hx => hg₁ x (List.mem_cons_of_mem s hx))
            (fun x hx => hg₂ x (List.mem_cons_of_mem u hx)) h'.2
          rw [String.ext h'.1, this]

theorem pathOfSegs_cons (base s : String) (rest : List String) :
    pathOfSegs base (s :: rest) = pathOfSegs (joinPath base s) rest := rfl

theorem joinPath_ne_empty {base s : String} (hs : s ≠ "") : joinPath base s ≠ "" := by
  unfold joinPath
  split
  · exact hs
  · intro h
    have hd := congrArg String.data h
    rw [String.data_append, String.data_append] at hd
    have hslash : ("/" : String).data = ['/'] := rfl
    rw [hslash] at hd
    simp at hd

theorem pathOfSegs_data : ∀ (segs : List String) (base : String), segs ≠ [] →
    (∀ s ∈ segs, goodName s = true) →
    (pathOfSegs base segs).data =
      (if base = "" then [] else base.data ++ ['/']) ++ segsData segs := by
  intro segs
  induction segs with
  | nil => intro base h; exact absurd rfl h
  | cons s rest ih =>
    intro base _ hg
    cases rest with
    | nil =>
      have hs : pathOfSegs base [s] = joinPath base s := rfl
      rw [hs]
      unfold joinPath
      split
      · simp [segsData]
      · rw [String.data_append, String.data_append]
        have hslash : ("/" : String).data = ['/'] := rfl
        simp [hslash, segsData]
    | cons t rest' =>
      rw [pathOfSegs_cons]
      have hne : joinPath base s ≠ "" :=
        joinPath_ne_empty (goodName_spec (hg s (by simp))).1
      rw [ih (joinPath base s) (by simp) (fun x hx => hg x (List.mem_cons_of_mem s hx))]
      rw [if_neg hne]
      have hsd : segsData (s :: t :: rest') = s.data ++ '/' :: segsData (t :: rest') := rfl
      unfold joinPath
      split
      · rw [hsd]
        simp
      · rw [String.data_append, String.data_append]
        have hslash : ("/" : String).data = ['/'] := rfl
        rw [hslash, hsd]
        simp

theorem pathOfSegs_inj {base : String} {r₁ r₂ : List String}
    (h₁ : r₁ ≠ []) (h₂ : r₂ ≠ [])
    (g₁ : ∀ s ∈ r₁, goodName s = true) (g₂ : ∀ s ∈ r₂, goodName s = true)
    (h : pathOfSegs base r₁ = pathOfSegs base r₂) : r₁ = r₂ := by
  have hd := congrArg String.data h
  rw [pathOfSegs_data r₁ base h₁ g₁, pathOfSegs_data r₂ base h₂ g₂] at hd
  exact segsData_inj r₁ r₂ g₁ g₂ (List.append_cancel_left hd)

/-! ## Association list (JavaScript map) lemmas -/

theorem jsMapGet_nil (k : String) : jsMapGet ([] : List (String × α)) k = none := rfl

theorem jsMapGet_cons {k' k : String} {v : α} {m : List (String × α)} :
    jsMapGet ((k', v) :: m) k = if k' = k then some v else jsMapGet m k := by
  unfold jsMapGet
  rw [List.find?_cons]
  by_cases h : k' = k
  · subst h
    simp
  · have hb : (k' == k) = false := by simp [h]
    simp [hb, h]

theorem jsMapGet_eq_none {m : List (String × α)} {k : String} :
    jsMapGet m k = none ↔ k ∉ m.map Prod.fst := by
  induction m with
  | nil => simp [jsMapGet_nil]
  | cons hd tl ih =>
    obtain ⟨k', v⟩ := hd
    rw [jsMapGet_cons]
    by_cases h : k' = k
    · rw [if_pos h]
      subst h
      simp
    · rw [if_neg h]
      simp only [List.map_cons, List.mem_cons, ih]
      constructor
      · intro hx
        rintro (hy | hy)
        · exact h hy.symm
        · exact hx hy
      · intro hx hy
        exact hx (Or.inr hy)

theorem jsMapGet_append (m₁ m₂ : List (String × α)) (k : String) :
    jsMapGet (m₁ ++ m₂) k =
      match jsMapGet m₁ k with
      | some v => some v
      | none => jsMapGet m₂ k := by
  induction m₁ with
  | nil => simp [jsMapGet_nil]
  | cons hd tl ih =>
    obtain ⟨k', v⟩ := hd
    rw [List.cons_append, jsMapGet_cons, jsMapGet_cons]
    by_cases h : k' = k <;> simp [h, ih]

theorem jsMapGet_mem {m : List (String × α)} {k : String} {v : α}
    (h : jsMapGet m k = some v) : (k, v) ∈ m := by
  induction m with
  | nil => simp [jsMapGet_nil] at h
  | cons hd tl ih =>
    obtain ⟨k', v'⟩ := hd
    rw [jsMapGet_cons] at h
    by_cases hk : k' = k
    · rw [if_pos hk] at h
      cases h
      subst hk
      simp
    · rw [if_neg hk] at h
      exact List.mem_cons_of_mem _ (ih h)

theorem jsMapGet_of_nodup_mem {m : List (String × α)} (hn : (m.map Prod.fst).Nodup)
    {k : String} {v : α} (hm : (k, v) ∈ m) : jsMapGet m k = some v := by
  induction m with
  | nil => cases hm
  | cons hd tl ih =>
    obtain ⟨k', v'⟩ := hd
    simp only [List.map_cons, List.nodup_cons] at hn
    rw [List.mem_cons] at hm
    rw [jsMapGet_cons]
    rcases hm with hm | hm
    · cases hm
      simp
    · have hk : k' ≠ k := by
        intro h
        subst h
        exact hn.1 (List.mem_map_of_mem Prod.fst hm)
      rw [if_neg hk]
      exact ih hn.2 hm

theorem jsMapHas_iff {m : List (String × α)} {k : String} :
    jsMapHas m k = true ↔ k ∈ m.map Prod.fst := by
  unfold jsMapHas
  rw [List.any_eq_true]
  constructor
  · rintro ⟨p, hp, he⟩
    simp only [beq_iff_eq] at he
    exact he ▸ List.mem_map_of_mem Prod.fst hp
  · intro h
    rw [List.mem_map] at h
    obtain ⟨p, hp, he⟩ := h
    exact ⟨p, hp, by simp [he]⟩

theorem jsMapHas_eq_false {m : List (String × α)} {k : String} :
    jsMapHas m k = false ↔ k ∉ m.map Prod.fst := by
  rw [← Bool.not_eq_true, not_iff_not]
  exact jsMapHas_iff

theorem jsMapSet_fresh {m : List (String × α)} {k : String} (v : α)
    (h : k ∉ m.map Prod.fst) : jsMapSet m k v = m ++ [(k, v)] := by
  have hf : (m.any fun p => p.1 == k) = false := by
    have := jsMapHas_eq_false.mpr h
    simpa [jsMapHas] using this
  unfold jsMapSet
  rw [hf]
  simp

theorem entryMap_eq_self {es : List (String × GitObj)}
    (h : (es.map Prod.fst).Nodup) : entryMap es = es := by
  suffices hgen : ∀ (tail pre : List (String × GitObj)),
      (∀ k ∈ tail.map Prod.fst, k ∉ pre.map Prod.fst) →
      (tail.map Prod.fst).Nodup →
      tail.foldl (fun m e => jsMapSet m e.1 e.2) pre = pre ++ tail by
    simpa [entryMap] using hgen es [] (by simp) h
  intro tail
  induction tail with
  | nil => intro pre _ _; simp
  | cons hd tl ih =>
    intro pre hdis hn
    obtain ⟨k, v⟩ := hd
    simp only [List.map_cons, List.nodup_cons] at hn
    have hfresh : k ∉ pre.map Prod.fst := hdis k (by simp)
    rw [List.foldl_cons, jsMapSet_fresh v hfresh,
      ih (pre ++ [(k, v)])
        (by
          intro k' hk'
          have h1 : k' ∉ pre.map Prod.fst :=
            hdis k' (by simp only [List.map_cons]; exact List.mem_cons_of_mem k hk')
          have h2 : k' ≠ k := fun he => hn.1 (he ▸ hk')
          simp only [List.map_append, List.mem_append]
          rintro (hp | hp)
          · exact h1 hp
          · simp at hp
            exact h2 hp)
        hn.2]
    simp

/-! ## Facts about well-formed trees and their blob maps -/

theorem wfEntries_iff {es : List (String × GitObj)} :
    wfEntries es = true ↔ ∀ e ∈ es, wfTree e.2 = true := by
  induction es with
  | nil => simp [wfEntries]
  | cons hd tl ih =>
    obtain ⟨n, o⟩ := hd
    unfold wfEntries
    rw [Bool.and_eq_true, ih]
    constructor
    · rintro ⟨h1, h2⟩ e he
      rw [List.mem_cons] at he
      rcases he with he | he
      · rw [he]
        exact h1
      · exact h2 e he
    · intro h
      exact ⟨h (n, o) (by simp), fun e he => h e (List.mem_cons_of_mem _ he)⟩

theorem wfTree_tree_iff {es : List (String × GitObj)} :
    wfTree (.tree es) = true ↔
      (es.map Prod.fst).Nodup ∧ (∀ e ∈ es, goodName e.1 = true) ∧
        (∀ e ∈ es, wfTree e.2 = true) := by
  have heq : wfTree (.tree es) =
      ((decide ((es.map Prod.fst).Nodup) && es.all fun e => goodName e.1) &&
        wfEntries es) := rfl
  rw [heq, Bool.and_eq_true, Bool.and_eq_true, decide_eq_true_iff, List.all_eq_true,
    wfEntries_iff]
  constructor
  · rintro ⟨⟨h1, h2⟩, h3⟩
    exact ⟨h1, h2, h3⟩
  · rintro ⟨h1, h2, h3⟩
    exact ⟨⟨h1, h2⟩, h3⟩

theorem segEntries_eq_flatMap (es : List (String × GitObj)) :
    segEntries es = es.flatMap entryChunk := by
  induction es with
  | nil => rfl
  | cons hd tl ih =>
    obtain ⟨n, o⟩ := hd
    rw [List.flatMap_cons, ← ih]
    cases o <;> rfl

theorem entryChunk_shape {e : String × GitObj} {p : List String × String}
    (h : p ∈ entryChunk e) : ∃ r, p.1 = e.1 :: r ∧ (r, p.2) ∈ segKeys e.2 ∨
      (e.2 = .blob p.2 ∧ p.1 = [e.1]) := by
  obtain ⟨n, o⟩ := e
  cases o with
  | blob b =>
    simp only [entryChunk] at h
    rw [List.mem_singleton] at h
    subst h
    exact ⟨[], Or.inr ⟨rfl, rfl⟩⟩
  | tree es =>
    simp only [entryChunk, List.mem_map] at h
    obtain ⟨q, hq, he⟩ := h
    exact ⟨q.1, Or.inl (by rw [← he]; exact ⟨rfl, hq⟩)⟩

theorem entryChunk_head {e : String × GitObj} {p : List String × String}
    (h : p ∈ entryChunk e) : ∃ r, p.1 = e.1 :: r := by
  rcases entryChunk_shape h with ⟨r, hr | hr⟩
  · exact ⟨r, hr.1⟩
  · exact ⟨[], hr.2⟩

theorem segKeys_good {t : GitObj} (h : wfTree t = true) :
    ∀ p ∈ segKeys t, p.1 ≠ [] ∧ ∀ s ∈ p.1, goodName s = true := by
  induction t using GitObj.inductionOn with
  | hblob oid => intro p hp; cases hp
  | htree es ih =>
    rw [wfTree_tree_iff] at h
    intro p hp
    rw [show segKeys (.tree es) = segEntries es from rfl, segEntries_eq_flatMap,
      List.mem_flatMap] at hp
    obtain ⟨e, he, hpe⟩ := hp
    rcases entryChunk_shape hpe with ⟨r, hr | hr⟩
    · obtain ⟨hr1, hr2⟩ := hr
      have := ih e he (h.2.2 e he) (r, p.2) hr2
      refine ⟨by rw [hr1]; simp, ?_⟩
      intro s hs
      rw [hr1, List.mem_cons] at hs
      rcases hs with hs | hs
      · rw [hs]
        exact h.2.1 e he
      · exact (ih e he (h.2.2 e he) (r, p.2) hr2).2 s hs
    · refine ⟨by rw [hr.2]; simp, ?_⟩
      intro s hs
      rw [hr.2, List.mem_singleton] at hs
      rw [hs]
      exact h.2.1 e he

theorem segKeys_oid_ne {t : GitObj} (h : wfTree t = true) :
    ∀ p ∈ segKeys t, p.2 ≠ "" := by
  induction t using GitObj.inductionOn with
  | hblob oid => intro p hp; cases hp
  | htree es ih =>
    rw [wfTree_tree_iff] at h
    intro p hp
    rw [show segKeys (.tree es) = segEntries es from rfl, segEntries_eq_flatMap,
      List.mem_flatMap] at hp
    obtain ⟨e, he, hpe⟩ := hp
    rcases entryChunk_shape hpe with ⟨r, hr | hr⟩
    · exact ih e he (h.2.2 e he) (r, p.2) hr.2
    · have hwf := h.2.2 e he
      rw [hr.1] at hwf
      unfold wfTree at hwf
      simpa using hwf

theorem segEntries_keys_nodup :
    ∀ (es : List (String × GitObj)),
      (es.map Prod.fst).Nodup →
      (∀ e ∈ es, ((segKeys e.2).map Prod.fst).Nodup) →
      ((segEntries es).map Prod.fst).Nodup := by
  intro es
  induction es with
  | nil => intro _ _; simp [segEntries]
  | cons hd tl ih =>
    intro hnames hsub
    rw [segEntries_eq_flatMap, List.flatMap_cons, List.map_append, ← segEntries_eq_flatMap]
    simp only [List.map_cons, List.nodup_cons] at hnames
    refine List.Nodup.append ?_ ?_ ?_
    · obtain ⟨n, o⟩ := hd
      cases o with
      | blob b => simp [entryChunk]
      | tree es' =>
        have hsn := hsub (n, .tree es') (by simp)
        have h1 : (entryChunk (n, .tree es')).map Prod.fst =
            ((segKeys (GitObj.tree es')).map Prod.fst).map (fun l => n :: l) := by
          simp only [entryChunk, List.map_map]
          rfl
        rw [h1]
        exact hsn.map (fun a b hh => by simpa using hh)
    · exact ih hnames.2 (fun e he => hsub e (List.mem_cons_of_mem _ he))
    · intro k hk1 hk2
      obtain ⟨p, hp, hpk⟩ := List.mem_map.mp hk1
      obtain ⟨q, hq, hqk⟩ := List.mem_map.mp hk2
      rw [segEntries_eq_flatMap, List.mem_flatMap] at hq
      obtain ⟨e, hee, hqe⟩ := hq
      obtain ⟨r1, hr1⟩ := entryChunk_head hp
      obtain ⟨r2, hr2⟩ := entryChunk_head hqe
      have hhead : hd.1 = e.1 := by
        have hpq : p.1 = q.1 := by rw [hpk, hqk]
        rw [hr1, hr2] at hpq
        exact ((List.cons.injEq _ _ _ _).mp hpq).1
      exact hnames.1 (hhead ▸ List.mem_map_of_mem Prod.fst hee)

theorem segKeys_nodup {t : GitObj} (h : wfTree t = true) :
    ((segKeys t).map Prod.fst).Nodup := by
  induction t using GitObj.inductionOn with
  | hblob oid => simp [segKeys]
  | htree es ih =>
    rw [wfTree_tree_iff] at h
    exact segEntries_keys_nodup es h.1 (fun e he => ih e he (h.2.2 e he))

theorem blobChunk_eq (base : String) (e : String × GitObj) :
    blobChunk base e = (entryChunk e).map (fun p => (pathOfSegs base p.1, p.2)) := by
  obtain ⟨n, o⟩ := e
  cases o with
  | blob b => rfl
  | tree es =>
    simp only [blobChunk, entryChunk, blobsB, List.map_map]
    rfl

theorem blobsEntries_cons (e : String × GitObj) (tl : List (String × GitObj))
    (base : String) :
    blobsEntries (e :: tl) base = blobChunk base e ++ blobsEntries tl base := by
  unfold blobsEntries
  rw [segEntries_eq_flatMap, List.flatMap_cons, List.map_append, blobChunk_eq,
    ← segEntries_eq_flatMap]

theorem blobsEntries_nil (base : String) : blobsEntries [] base = [] := rfl

theorem blobsB_tree_eq (es : List (String × GitObj)) (base : String) :
    blobsB (.tree es) base = blobsEntries es base := rfl

theorem blobsB_blob_eq (b : String) (base : String) : blobsB (.blob b) base = [] := rfl

theorem blobChunk_key {base : String} {e : String × GitObj} {k : String}
    (hwf : wfTree e.2 = true)
    (h : k ∈ (blobChunk base e).map Prod.fst) :
    ∃ r, k = pathOfSegs base (e.1 :: r) ∧ (∀ s ∈ r, goodName s = true) := by
  rw [blobChunk_eq, List.map_map] at h
  obtain ⟨p, hp, hk⟩ := List.mem_map.mp h
  rcases entryChunk_shape hp with ⟨r, hr | hr⟩
  · refine ⟨r, ?_, (segKeys_good hwf (r, p.2) hr.2).2⟩
    rw [← hk]
    show pathOfSegs base p.1 = _
    rw [hr.1]
  · refine ⟨[], ?_, by simp⟩
    rw [← hk]
    show pathOfSegs base p.1 = _
    rw [hr.2]

theorem blobsB_keys_nodup {t : GitObj} {base : String} (h : wfTree t = true) :
    ((blobsB t base).map Prod.fst).Nodup := by
  unfold blobsB
  rw [List.map_map,
    show (Prod.fst ∘ fun p : List String × String => (pathOfSegs base p.1, p.2)) =
      (pathOfSegs base) ∘ Prod.fst from rfl,
    ← List.map_map]
  refine List.Nodup.map_on ?_ (segKeys_nodup h)
  intro x hx y hy hxy
  obtain ⟨px, hpx, hex⟩ := List.mem_map.mp hx
  obtain ⟨py, hpy, hey⟩ := List.mem_map.mp hy
  have gx := segKeys_good h px hpx
  have gy := segKeys_good h py hpy
  rw [← hex, ← hey] at hxy ⊢
  rw [pathOfSegs_inj gx.1 gy.1 gx.2 gy.2 hxy]

theorem blobsB_oid_ne {t : GitObj} {base : String} (h : wfTree t = true) :
    ∀ pr ∈ blobsB t base, pr.2 ≠ "" := by
  intro pr hpr
  obtain ⟨p, hp, he⟩ := List.mem_map.mp hpr
  have := segKeys_oid_ne h p hp
  rw [← he]
  exact this

theorem walkEntries_eq (base : String) :
    ∀ (es : List (String × GitObj)) (files : List (String × String)),
      (∀ e ∈ es, ∀ (b : String) (f : List (String × String)),
          (∀ k ∈ (blobsB e.2 b).map Prod.fst, k ∉ f.map Prod.fst) →
          walkAux e.2 b f = f ++ blobsB e.2 b) →
      ((blobsEntries es base).map Prod.fst).Nodup →
      (∀ k ∈ (blobsEntries es base).map Prod.fst, k ∉ files.map Prod.fst) →
      walkEntries es base files = files ++ blobsEntries es base := by
  intro es
  induction es with
  | nil =>
    intro files _ _ _
    simp [walkEntries, blobsEntries_nil]
  | cons hd tl ih =>
    intro files hihs hnodup hfresh
    obtain ⟨n, o⟩ := hd
    rw [blobsEntries_cons] at hnodup hfresh ⊢
    rw [List.map_append, List.nodup_append] at hnodup
    have hchunkfresh : ∀ k ∈ (blobChunk base (n, o)).map Prod.fst,
        k ∉ files.map Prod.fst := by
      intro k hk
      exact hfresh k (by rw [List.map_append]; exact List.mem_append_left _ hk)
    have hrestfresh : ∀ k ∈ (blobsEntries tl base).map Prod.fst,
        k ∉ (files ++ blobChunk base (n, o)).map Prod.fst := by
      intro k hk
      rw [List.map_append, List.mem_append]
      rintro (hc | hc)
      · exact hfresh k (by rw [List.map_append]; exact List.mem_append_right _ hk) hc
      · exact hnodup.2.2 hc hk
    cases o with
    | blob b =>
      have hstep : walkEntries ((n, .blob b) :: tl) base files =
          walkEntries tl base (jsMapSet files (joinPath base n) b) := rfl
      rw [hstep, jsMapSet_fresh b (hchunkfresh (joinPath base n) (by simp [blobChunk]))]
      rw [ih (files ++ [(joinPath base n, b)])
        (fun e he => hihs e (List.mem_cons_of_mem _ he)) hnodup.2.1
        (by simpa [blobChunk] using hrestfresh)]
      simp [blobChunk]
    | tree es' =>
      have hstep : walkEntries ((n, .tree es') :: tl) base files =
          walkEntries tl base (walkAux (.tree es') (joinPath base n) files) := rfl
      rw [hstep,
        hihs (n, .tree es') (by simp) (joinPath base n) files
          (by simpa [blobChunk] using hchunkfresh)]
      rw [ih (files ++ blobsB (.tree es') (joinPath base n))
        (fun e he => hihs e (List.mem_cons_of_mem _ he)) hnodup.2.1
        (by simpa [blobChunk] using hrestfresh)]
      simp [blobChunk]

theorem walkAux_eq {t : GitObj} (h : wfTree t = true) :
    ∀ (base : String) (files : List (String × String)),
      (∀ k ∈ (blobsB t base).map Prod.fst, k ∉ files.map Prod.fst) →
      walkAux t base files = files ++ blobsB t base := by
  induction t using GitObj.inductionOn with
  | hblob oid =>
    intro base files _
    simp [walkAux, blobsB_blob_eq]
  | htree es ih =>
    intro base files hfresh
    rw [wfTree_tree_iff] at h
    have hstep : walkAux (.tree es) base files = walkEntries es base files := rfl
    rw [hstep, walkEntries_eq base es files
      (fun e he b f hf => ih e he (h.2.2 e he) b f hf)
      (by
        have := @blobsB_keys_nodup (.tree es) base (wfTree_tree_iff.mpr h)
        rwa [blobsB_tree_eq] at this)
      (by rwa [blobsB_tree_eq] at hfresh)]
    rw [blobsB_tree_eq]

theorem walkTree_eq {t : GitObj} (h : wfTree t = true) :
    walkTree t = blobsB t "" := by
  unfold walkTree
  rw [walkAux_eq h "" [] (by simp)]
  simp

/-! ## `diffTrees` as a pair of filter-maps -/

theorem foldl_opt_eq_filterMap (f : α → Option FileChange) :
    ∀ (l : List α) (init : List FileChange),
      l.foldl (fun acc x =>
        match f x with
        | some y => acc ++ [y]
        | none => acc) init = init ++ l.filterMap f := by
  intro l
  induction l with
  | nil => intro init; simp
  | cons hd tl ih =>
    intro init
    rw [List.foldl_cons, List.filterMap_cons]
    cases hf : f hd with
    | none => simp only [hf]; rw [ih]
    | some y => simp only [hf]; rw [ih]; simp

theorem diffTrees_eq (m₁ m₂ : List (String × String)) :
    diffTrees m₁ m₂ =
      m₂.filterMap (addModChange m₁) ++ m₁.filterMap (removedChange m₂) := by
  unfold diffTrees
  have h1 : (fun (changes : List FileChange) (pr : String × String) =>
      match jsMapGet m₁ pr.1 with
      | none => changes ++ [⟨pr.1, .added, 0, 0, none⟩]
      | some oldOid =>
        if oldOid = "" then changes ++ [⟨pr.1, .added, 0, 0, none⟩]
        else if oldOid ≠ pr.2 then changes ++ [⟨pr.1, .modified, 0, 0, none⟩]
        else changes) =
      (fun acc x =>
        match addModChange m₁ x with
        | some y => acc ++ [y]
        | none => acc) := by
    funext changes pr
    unfold addModChange
    cases jsMapGet m₁ pr.1 with
    | none => rfl
    | some o =>
      by_cases h : o = ""
      · simp [h]
      · by_cases h2 : o ≠ pr.2 <;> simp [h, h2]
  have h2 : (fun (changes : List FileChange) (pr : String × String) =>
      if jsMapHas m₂ pr.1 then changes
      else changes ++ [⟨pr.1, .removed, 0, 0, none⟩]) =
      (fun acc x =>
        match removedChange m₂ x with
        | some y => acc ++ [y]
        | none => acc) := by
    funext changes pr
    unfold removedChange
    by_cases h : jsMapHas m₂ pr.1 <;> simp [h]
  rw [h1, h2, foldl_opt_eq_filterMap, foldl_opt_eq_filterMap]
  simp

theorem filterMap_addMod_self {m : List (String × String)}
    (hn : (m.map Prod.fst).Nodup) (hoid : ∀ pr ∈ m, pr.2 ≠ "") :
    m.filterMap (addModChange m) = [] := by
  rw [List.filterMap_eq_nil_iff]
  intro pr hpr
  obtain ⟨a, b⟩ := pr
  have hb := hoid (a, b) hpr
  unfold addModChange
  rw [show ((a, b).1 : String) = a from rfl, jsMapGet_of_nodup_mem hn hpr]
  simp [hb]

theorem filterMap_removed_self {m : List (String × String)} :
    m.filterMap (removedChange m) = [] := by
  rw [List.filterMap_eq_nil_iff]
  intro pr hpr
  unfold removedChange
  rw [if_pos]
  rw [jsMapHas_iff]
  exact List.mem_map_of_mem Prod.fst hpr

/-! ## Looking up a path restricted to its entry -/

theorem pathOfSegs_head_eq {base n₁ n₂ : String} {r₁ r₂ : List String}
    (h₁ : goodName n₁ = true) (h₂ : goodName n₂ = true)
    (hr₁ : ∀ s ∈ r₁, goodName s = true) (hr₂ : ∀ s ∈ r₂, goodName s = true)
    (h : pathOfSegs base (n₁ :: r₁) = pathOfSegs base (n₂ :: r₂)) : n₁ = n₂ := by
  have := pathOfSegs_inj (by simp) (by simp)
    (by
      intro s hs
      rw [List.mem_cons] at hs
      rcases hs with hs | hs
      · rw [hs]; exact h₁
      · exact hr₁ s hs)
    (by
      intro s hs
      rw [List.mem_cons] at hs
      rcases hs with hs | hs
      · rw [hs]; exact h₂
      · exact hr₂ s hs) h
  exact (List.cons.injEq _ _ _ _).mp this |>.1

theorem not_mem_blobsEntries_keys {es : List (String × GitObj)} {base : String}
    (hgood : ∀ e ∈ es, goodName e.1 = true)
    (hwf : ∀ e ∈ es, wfTree e.2 = true)
    {n : String} (hn : goodName n = true) {r : List String}
    (hr : ∀ s ∈ r, goodName s = true)
    (habs : n ∉ es.map Prod.fst) :
    pathOfSegs base (n :: r) ∉ (blobsEntries es base).map Prod.fst := by
  induction es with
  | nil => simp [blobsEntries_nil]
  | cons hd tl ih =>
    rw [blobsEntries_cons, List.map_append, List.mem_append]
    rintro (hc | hc)
    · obtain ⟨r', hre, hrg⟩ := blobChunk_key (hwf hd (by simp)) hc
      exact habs (by
        rw [pathOfSegs_head_eq hn (hgood hd (by simp)) hr hrg hre]
        simp)
    · exact ih (fun e he => hgood e (List.mem_cons_of_mem _ he))
        (fun e he => hwf e (List.mem_cons_of_mem _ he))
        (fun hm => habs (by simp [hm])) hc

theorem jsMapGet_blobsEntries_under {es : List (String × GitObj)} {base : String}
    (hnames : (es.map Prod.fst).Nodup)
    (hgood : ∀ e ∈ es, goodName e.1 = true)
    (hwf : ∀ e ∈ es, wfTree e.2 = true)
    {n : String} (hn : goodName n = true) {r : List String}
    (hr : ∀ s ∈ r, goodName s = true) :
    jsMapGet (blobsEntries es base) (pathOfSegs base (n :: r)) =
      match jsMapGet es n with
      | none => none
      | some o => jsMapGet (blobChunk base (n, o)) (pathOfSegs base (n :: r)) := by
  induction es with
  | nil => simp [blobsEntries_nil, jsMapGet_nil]
  | cons hd tl ih =>
    obtain ⟨m, o⟩ := hd
    rw [blobsEntries_cons, jsMapGet_append, jsMapGet_cons]
    simp only [List.map_cons, List.nodup_cons] at hnames
    by_cases hm : m = n
    · subst hm
      rw [if_pos rfl]
      cases hcg : jsMapGet (blobChunk base (m, o)) (pathOfSegs base (m :: r)) with
      | some v => simp [hcg]
      | none =>
        simp only [hcg]
        rw [jsMapGet_eq_none.mpr]
        exact not_mem_blobsEntries_keys
          (fun e he => hgood e (List.mem_cons_of_mem _ he))
          (fun e he => hwf e (List.mem_cons_of_mem _ he)) hn hr hnames.1
    · rw [if_neg hm]
      have hcn : jsMapGet (blobChunk base (m, o)) (pathOfSegs base (n :: r)) = none := by
        rw [jsMapGet_eq_none.mpr]
        intro hc
        obtain ⟨r', hre, hrg⟩ := blobChunk_key (hwf (m, o) (by simp)) hc
        exact hm (pathOfSegs_head_eq (hgood (m, o) (by simp)) hn hrg hr hre.symm)
      rw [hcn]
      exact ih hnames.2 (fun e he => hgood e (List.mem_cons_of_mem _ he))
        (fun e he => hwf e (List.mem_cons_of_mem _ he))

/-! ## Agreement of the two differs: supporting definitions -/

theorem blobsOpt_eq (o? : Option GitObj) (base : String) :
    blobsOpt o? base = blobsEntries (readTreeSafeOpt o?) base := by
  cases o? with
  | none => rfl
  | some o => cases o <;> rfl

theorem wfOpt_names {o? : Option GitObj} (h : wfOpt o? = true) :
    ((readTreeSafeOpt o?).map Prod.fst).Nodup := by
  cases o? with
  | none => simp [readTreeSafeOpt]
  | some o =>
    cases o with
    | blob b => simp [readTreeSafeOpt, readTreeSafe]
    | tree es => exact (wfTree_tree_iff.mp h).1

theorem wfOpt_good {o? : Option GitObj} (h : wfOpt o? = true) :
    ∀ e ∈ readTreeSafeOpt o?, goodName e.1 = true := by
  cases o? with
  | none => simp [readTreeSafeOpt]
  | some o =>
    cases o with
    | blob b => simp [readTreeSafeOpt, readTreeSafe]
    | tree es => exact (wfTree_tree_iff.mp h).2.1

theorem wfOpt_wf {o? : Option GitObj} (h : wfOpt o? = true) :
    ∀ e ∈ readTreeSafeOpt o?, wfTree e.2 = true := by
  cases o? with
  | none => simp [readTreeSafeOpt]
  | some o =>
    cases o with
    | blob b => simp [readTreeSafeOpt, readTreeSafe]
    | tree es => exact (wfTree_tree_iff.mp h).2.2

theorem blobsEntries_eq_flatMap (es : List (String × GitObj)) (base : String) :
    blobsEntries es base = es.flatMap (blobChunk base) := by
  induction es with
  | nil => rfl
  | cons hd tl ih => rw [blobsEntries_cons, List.flatMap_cons, ih]

theorem blobChunk_sub {es : List (String × GitObj)} {e : String × GitObj}
    (he : e ∈ es) (base : String) :
    ∀ pr ∈ blobChunk base e, pr ∈ blobsEntries es base := by
  intro pr hpr
  rw [blobsEntries_eq_flatMap, List.mem_flatMap]
  exact ⟨e, he, hpr⟩

theorem collectEntries_eq :
    ∀ (es : List (String × GitObj)) (base : String),
      (∀ e ∈ es, ∀ b, collectAllFiles e.2 b = (blobsB e.2 b).map Prod.fst) →
      collectEntries es base = (blobsEntries es base).map Prod.fst := by
  intro es
  induction es with
  | nil => intro base _; rfl
  | cons hd tl ih =>
    intro base hsub
    obtain ⟨n, o⟩ := hd
    rw [blobsEntries_cons, List.map_append]
    have hco : collectEntries ((n, o) :: tl) base =
        (match o with
         | .blob _ => [joinPath base n]
         | .tree _ => collectAllFiles o (joinPath base n)) ++ collectEntries tl base := by
      cases o <;> rfl
    rw [hco, ih base (fun e he => hsub e (List.mem_cons_of_mem _ he))]
    congr 1
    cases o with
    | blob b => rfl
    | tree es' =>
      rw [hsub (n, .tree es') (by simp) (joinPath base n)]
      rfl

theorem collectAllFiles_eq {t : GitObj} :
    ∀ base, collectAllFiles t base = (blobsB t base).map Prod.fst := by
  induction t using GitObj.inductionOn with
  | hblob oid => intro base; rfl
  | htree es ih =>
    intro base
    have hstep : collectAllFiles (.tree es) base = collectEntries es base := rfl
    rw [hstep, collectEntries_eq es base ih, blobsB_tree_eq]

theorem jsMapHas_eq_isSome (m : List (String × α)) (k : String) :
    jsMapHas m k = (jsMapGet m k).isSome := by
  induction m with
  | nil => rfl
  | cons hd tl ih =>
    obtain ⟨k', v⟩ := hd
    rw [jsMapGet_cons]
    by_cases h : k' = k
    · simp [jsMapHas, h]
    · have hb : (k' == k) = false := by simp [h]
      simp only [jsMapHas, List.any_cons, hb, Bool.false_or, if_neg h]
      exact ih

theorem jsMapHas_blobsEntries_under {es : List (String × GitObj)} {base : String}
    (hnames : (es.map Prod.fst).Nodup)
    (hgood : ∀ e ∈ es, goodName e.1 = true)
    (hwf : ∀ e ∈ es, wfTree e.2 = true)
    {n : String} (hn : goodName n = true) {r : List String}
    (hr : ∀ s ∈ r, goodName s = true) :
    jsMapHas (blobsEntries es base) (pathOfSegs base (n :: r)) =
      match jsMapGet es n with
      | none => false
      | some o => jsMapHas (blobChunk base (n, o)) (pathOfSegs base (n :: r)) := by
  rw [jsMapHas_eq_isSome, jsMapGet_blobsEntries_under hnames hgood hwf hn hr]
  cases jsMapGet es n with
  | none => rfl
  | some o =>
    show (jsMapGet (blobChunk base (n, o)) (pathOfSegs base (n :: r))).isSome =
      jsMapHas (blobChunk base (n, o)) (pathOfSegs base (n :: r))
    rw [jsMapHas_eq_isSome]

/-! ## Permutation utilities -/

theorem perm_append_middle (a b c d : List FileChange) :
    List.Perm ((a ++ b) ++ (c ++ d)) ((a ++ c) ++ (b ++ d)) := by
  rw [List.append_assoc, List.append_assoc]
  refine List.Perm.append_left a ?_
  rw [← List.append_assoc, ← List.append_assoc]
  exact List.Perm.append_right d List.perm_append_comm

theorem flatMap_if_filter (l : List (String × GitObj)) (p : String × GitObj → Bool)
    (f : String × GitObj → List FileChange) :
    l.flatMap (fun e => if p e then [] else f e) =
      (l.filter (fun e => !(p e))).flatMap f := by
  induction l with
  | nil => rfl
  | cons hd tl ih =>
    rw [List.flatMap_cons, List.filter_cons, ih]
    by_cases h : p hd <;> simp [h]

theorem flatMap_drop_empty (l : List String) (p : String → Bool)
    (g : String → List FileChange) (h : ∀ n ∈ l, p n = false → g n = []) :
    l.flatMap g = (l.filter p).flatMap g := by
  induction l with
  | nil => rfl
  | cons hd tl ih =>
    rw [List.flatMap_cons, List.filter_cons,
      ih (fun n hn => h n (List.mem_cons_of_mem _ hn))]
    by_cases hp : p hd
    · simp [hp]
    · rw [if_neg hp, h hd (by simp) (by simpa using hp)]
      simp

theorem newPass_nil (oldMap : List (String × GitObj)) (base : String) :
    newPass [] oldMap base = [] := rfl

theorem newPass_cons (n : String) (obj : GitObj)
    (rest oldMap : List (String × GitObj)) (base : String) :
    newPass ((n, obj) :: rest) oldMap base =
      newChunk oldMap base n obj ++ newPass rest oldMap base := rfl

theorem removedPass_eq_flatMap (oldTree newMap : List (String × GitObj))
    (base : String) :
    removedPass oldTree newMap base = oldTree.flatMap (remChunk newMap base) := by
  induction oldTree with
  | nil => rfl
  | cons hd tl ih =>
    obtain ⟨n, o⟩ := hd
    rw [List.flatMap_cons, ← ih]
    rfl

theorem diffTreesIncremental_self (t : GitObj) (base : String) :
    diffTreesIncremental (some t) t base = [] := by
  unfold diffTreesIncremental
  simp

theorem diffTreesIncremental_tree {oldT : Option GitObj}
    {newEs : List (String × GitObj)} {base : String}
    (hne : oldT ≠ some (.tree newEs)) :
    diffTreesIncremental oldT (.tree newEs) base =
      newPass newEs (entryMap (readTreeSafeOpt oldT)) base ++
        removedPass (readTreeSafeOpt oldT) (entryMap newEs) base := by
  unfold diffTreesIncremental
  rw [if_neg hne]
  cases oldT with
  | none => rfl
  | some o => rfl

theorem diffTreesIncremental_blob {oldT : Option GitObj} {b : String} {base : String}
    (hne : oldT ≠ some (.blob b)) :
    diffTreesIncremental oldT (.blob b) base =
      removedPass (readTreeSafeOpt oldT) (entryMap []) base := by
  unfold diffTreesIncremental
  rw [if_neg hne]
  cases oldT with
  | none => rfl
  | some o => rfl

/-! ## Per-entry chunk facts -/

theorem blobChunk_blob_def (base n b : String) :
    blobChunk base (n, .blob b) = [(joinPath base n, b)] := rfl

theorem blobChunk_tree_def (base n : String) (es : List (String × GitObj)) :
    blobChunk base (n, .tree es) = blobsB (.tree es) (joinPath base n) := rfl

theorem blobChunk_keys_nodup {base : String} {e : String × GitObj}
    (h : wfTree e.2 = true) : ((blobChunk base e).map Prod.fst).Nodup := by
  obtain ⟨n, o⟩ := e
  cases o with
  | blob b => simp [blobChunk_blob_def]
  | tree es => exact blobsB_keys_nodup h

theorem blobChunk_oid_ne {base : String} {e : String × GitObj}
    (h : wfTree e.2 = true) : ∀ pr ∈ blobChunk base e, pr.2 ≠ "" := by
  obtain ⟨n, o⟩ := e
  cases o with
  | blob b =>
    intro pr hpr
    rw [blobChunk_blob_def, List.mem_singleton] at hpr
    subst hpr
    unfold wfTree at h
    simpa using h
  | tree es => exact blobsB_oid_ne h

theorem pathOfSegs_ne_of_ne {base : String} {r₁ r₂ : List String}
    (h₁ : r₁ ≠ []) (h₂ : r₂ ≠ [])
    (g₁ : ∀ s ∈ r₁, goodName s = true) (g₂ : ∀ s ∈ r₂, goodName s = true)
    (hne : r₁ ≠ r₂) : pathOfSegs base r₁ ≠ pathOfSegs base r₂ :=
  fun h => hne (pathOfSegs_inj h₁ h₂ g₁ g₂ h)

theorem blobChunk_key_tree {base n : String} {es' : List (String × GitObj)}
    (hwf : wfTree (.tree es') = true) {k : String}
    (h : k ∈ (blobChunk base (n, .tree es')).map Prod.fst) :
    ∃ r, r ≠ [] ∧ k = pathOfSegs base (n :: r) ∧ ∀ s ∈ r, goodName s = true := by
  rw [blobChunk_tree_def] at h
  unfold blobsB at h
  rw [List.map_map] at h
  obtain ⟨p, hp, he⟩ := List.mem_map.mp h
  have hg := segKeys_good hwf p hp
  refine ⟨p.1, hg.1, ?_, hg.2⟩
  rw [← he]
  rfl

theorem filterMap_all_some {l : List α} {h : α → Option FileChange}
    {f : α → FileChange} (hx : ∀ x ∈ l, h x = some (f x)) :
    l.filterMap h = l.map f := by
  induction l with
  | nil => rfl
  | cons hd tl ih =>
    rw [List.filterMap_cons, hx hd (by simp), List.map_cons,
      ih (fun x hxm => hx x (List.mem_cons_of_mem _ hxm))]

theorem jsMapGet_tree_chunk_at_join {base n : String} {es' : List (String × GitObj)}
    (hwf : wfTree (.tree es') = true) (hn : goodName n = true) :
    jsMapGet (blobChunk base (n, .tree es')) (joinPath base n) = none := by
  rw [jsMapGet_eq_none]
  intro hk
  obtain ⟨r, hrne, hre, hrg⟩ := blobChunk_key_tree hwf hk
  refine @pathOfSegs_ne_of_ne base [n] (n :: r) (by simp) (by simp) ?_ ?_ ?_ hre
  · intro s hs
    rw [List.mem_singleton] at hs
    rw [hs]
    exact hn
  · intro s hs
    rw [List.mem_cons] at hs
    rcases hs with hs | hs
    · rw [hs]; exact hn
    · exact hrg s hs
  · intro hc
    rw [List.cons.injEq] at hc
    exact hrne hc.2.symm

theorem jsMapGet_singleton_deep {jp x : String} {base n : String} {r : List String}
    (hn : goodName n = true) (hrne : r ≠ []) (hrg : ∀ s ∈ r, goodName s = true)
    (hjp : jp = joinPath base n) :
    jsMapGet [(jp, x)] (pathOfSegs base (n :: r)) = none := by
  rw [jsMapGet_cons, if_neg, jsMapGet_nil]
  rw [hjp]
  show pathOfSegs base [n] ≠ pathOfSegs base (n :: r)
  refine pathOfSegs_ne_of_ne (by simp) (by simp) ?_ ?_ ?_
  · intro s hs
    rw [List.mem_singleton] at hs
    rw [hs]
    exact hn
  · intro s hs
    rw [List.mem_cons] at hs
    rcases hs with hs | hs
    · rw [hs]; exact hn
    · exact hrg s hs
  · intro hc
    rw [List.cons.injEq] at hc
    exact hrne hc.2.symm

theorem perm_of_eq {l₁ l₂ : List FileChange} (h : l₁ = l₂) : List.Perm l₁ l₂ :=
  h ▸ List.Perm.refl l₁

/-- One entry of the new-entries loop agrees (as a multiset) with the changes
the flattened-map differ assigns to the paths under that entry's name:
its added/modified changes plus, when the old tree has an entry of the same
name, the removed changes of the old entry's blobs. -/
theorem newChunk_perm
    {oldEntries newEs : List (String × GitObj)} {base : String}
    (honames : (oldEntries.map Prod.fst).Nodup)
    (hogood : ∀ e ∈ oldEntries, goodName e.1 = true)
    (howf : ∀ e ∈ oldEntries, wfTree e.2 = true)
    (hnnames : (newEs.map Prod.fst).Nodup)
    (hngood : ∀ e ∈ newEs, goodName e.1 = true)
    (hnwf : ∀ e ∈ newEs, wfTree e.2 = true)
    {n : String} {obj : GitObj} (hmem : (n, obj) ∈ newEs)
    (ihsub : ∀ (old? : Option GitObj) (b : String), wfOpt old? = true →
      List.Perm (diffTreesIncremental old? obj b)
        (diffTrees (blobsOpt old? b) (blobsB obj b))) :
    List.Perm (newChunk oldEntries base n obj)
      ((blobChunk base (n, obj)).filterMap
          (addModChange (blobsEntries oldEntries base)) ++
        (match jsMapGet oldEntries n with
         | none => []
         | some o' => (blobChunk base (n, o')).filterMap
             (removedChange (blobsEntries newEs base)))) := by
  have hn : goodName n = true := hngood (n, obj) hmem
  have hwobj : wfTree obj = true := hnwf (n, obj) hmem
  have hgetNew : jsMapGet newEs n = some obj := jsMapGet_of_nodup_mem hnnames hmem
  have hkeyNew : ∀ pr ∈ blobChunk base (n, obj),
      ∃ r, pr.1 = pathOfSegs base (n :: r) ∧ ∀ s ∈ r, goodName s = true := by
    intro pr hpr
    obtain ⟨r, hre, hrg⟩ := blobChunk_key hwobj (List.mem_map_of_mem Prod.fst hpr)
    exact ⟨r, hre, hrg⟩
  cases hget : jsMapGet oldEntries n with
  | none =>
    have hadd : ∀ pr ∈ blobChunk base (n, obj),
        addModChange (blobsEntries oldEntries base) pr =
          some ⟨pr.1, .added, 0, 0, none⟩ := by
      intro pr hpr
      obtain ⟨r, hre, hrg⟩ := hkeyNew pr hpr
      unfold addModChange
      rw [hre, jsMapGet_blobsEntries_under honames hogood howf hn hrg, hget]
    show List.Perm (newChunk oldEntries base n obj)
      ((blobChunk base (n, obj)).filterMap
        (addModChange (blobsEntries oldEntries base)) ++ [])
    apply perm_of_eq
    rw [@filterMap_all_some _ (blobChunk base (n, obj))
      (addModChange (blobsEntries oldEntries base))
      (fun pr => ⟨pr.1, .added, 0, 0, none⟩) hadd, List.append_nil]
    cases obj with
    | blob b =>
      simp only [newChunk, hget]
      rfl
    | tree es' =>
      simp only [newChunk, hget]
      rw [collectAllFiles_eq (joinPath base n), ← blobChunk_tree_def, List.map_map]
      rfl
  | some o' =>
    have hmemo' : (n, o') ∈ oldEntries := jsMapGet_mem hget
    have hwfo' : wfTree o' = true := howf (n, o') hmemo'
    have hkeyOld : ∀ pr ∈ blobChunk base (n, o'),
        ∃ r, pr.1 = pathOfSegs base (n :: r) ∧ ∀ s ∈ r, goodName s = true := by
      intro pr hpr
      obtain ⟨r, hre, hrg⟩ := blobChunk_key hwfo' (List.mem_map_of_mem Prod.fst hpr)
      exact ⟨r, hre, hrg⟩
    have hAM : ∀ pr ∈ blobChunk base (n, obj),
        addModChange (blobsEntries oldEntries base) pr =
          addModChange (blobChunk base (n, o')) pr := by
      intro pr hpr
      obtain ⟨r, hre, hrg⟩ := hkeyNew pr hpr
      unfold addModChange
      rw [hre, jsMapGet_blobsEntries_under honames hogood howf hn hrg, hget, ← hre]
    have hREM : ∀ pr ∈ blobChunk base (n, o'),
        removedChange (blobsEntries newEs base) pr =
          removedChange (blobChunk base (n, obj)) pr := by
      intro pr hpr
      obtain ⟨r, hre, hrg⟩ := hkeyOld pr hpr
      unfold removedChange
      rw [hre, jsMapHas_blobsEntries_under hnnames hngood hnwf hn hrg, hgetNew, ← hre]
    show List.Perm (newChunk oldEntries base n obj)
      ((blobChunk base (n, obj)).filterMap
          (addModChange (blobsEntries oldEntries base)) ++
        (blobChunk base (n, o')).filterMap
          (removedChange (blobsEntries newEs base)))
    rw [List.filterMap_congr hAM, List.filterMap_congr hREM]
    by_cases heq : o' = obj
    · subst heq
      have hch : newChunk oldEntries base n o' = [] := by
        simp only [newChunk, hget]
        simp
      have h1 : (blobChunk base (n, o')).filterMap
          (addModChange (blobChunk base (n, o'))) = [] := by
        apply List.filterMap_eq_nil_iff.mpr
        intro pr hpr
        obtain ⟨a, b⟩ := pr
        have hoid := blobChunk_oid_ne hwfo' (a, b) hpr
        unfold addModChange
        rw [show ((a, b).1 : String) = a from rfl,
          jsMapGet_of_nodup_mem (blobChunk_keys_nodup hwfo') hpr]
        simp [hoid]
      have h2 : (blobChunk base (n, o')).filterMap
          (removedChange (blobChunk base (n, o'))) = [] := filterMap_removed_self
      rw [hch, h1, h2]
      exact List.Perm.refl _
    · have hch : newChunk oldEntries base n obj =
          (match obj, o' with
           | .blob _, .blob _ => [⟨joinPath base n, .modified, 0, 0, none⟩]
           | .tree _, .tree _ => diffTreesIncremental (some o') obj (joinPath base n)
           | _, _ =>
             (match o' with
              | .blob _ => [⟨joinPath base n, .removed, 0, 0, none⟩]
              | .tree _ => (collectAllFiles o' (joinPath base n)).map
                  (fun f => ⟨f, .removed, 0, 0, none⟩))
             ++ (match obj with
              | .blob _ => [⟨joinPath base n, .added, 0, 0, none⟩]
              | .tree _ => (collectAllFiles obj (joinPath base n)).map
                  (fun f => ⟨f, .added, 0, 0, none⟩))) := by
        simp only [newChunk, hget, if_neg heq]
        cases obj <;> cases o' <;> rfl
      rw [hch]
      cases obj with
      | blob b =>
        cases o' with
        | blob b' =>
          have hbb : b' ≠ b := fun hc => heq (by rw [hc])
          have hb'ne : b' ≠ "" := by
            unfold wfTree at hwfo'
            simpa using hwfo'
          apply perm_of_eq
          have h1 : (blobChunk base (n, .blob b)).filterMap
              (addModChange (blobChunk base (n, .blob b'))) =
              [⟨joinPath base n, .modified, 0, 0, none⟩] := by
            rw [blobChunk_blob_def, blobChunk_blob_def]
            have hv : addModChange [(joinPath base n, b')] (joinPath base n, b) =
                some ⟨joinPath base n, .modified, 0, 0, none⟩ := by
              simp [addModChange, jsMapGet_cons, hb'ne, hbb]
            simp [List.filterMap, hv]
          have h2 : (blobChunk base (n, .blob b')).filterMap
              (removedChange (blobChunk base (n, .blob b))) = [] := by
            apply List.filterMap_eq_nil_iff.mpr
            intro pr hpr
            rw [blobChunk_blob_def, List.mem_singleton] at hpr
            subst hpr
            unfold removedChange
            rw [if_pos]
            rw [blobChunk_blob_def, jsMapHas_eq_isSome,
              show ((joinPath base n, b').1 : String) = joinPath base n from rfl,
              jsMapGet_cons, if_pos rfl]
            rfl
          rw [h1, h2, List.append_nil]
        | tree es'' =>
          have h1 : (blobChunk base (n, .blob b)).filterMap
              (addModChange (blobChunk base (n, .tree es''))) =
              [⟨joinPath base n, .added, 0, 0, none⟩] := by
            rw [blobChunk_blob_def]
            have hv : addModChange (blobChunk base (n, .tree es''))
                (joinPath base n, b) = some ⟨joinPath base n, .added, 0, 0, none⟩ := by
              unfold addModChange
              rw [show ((joinPath base n, b).1 : String) = joinPath base n from rfl,
                jsMapGet_tree_chunk_at_join hwfo' hn]
            simp [List.filterMap, hv]
          have hfn : ∀ pr ∈ blobChunk base (n, .tree es''),
              removedChange (blobChunk base (n, .blob b)) pr =
                some ⟨pr.1, .removed, 0, 0, none⟩ := by
            intro pr hpr
            obtain ⟨r, hrne, hre, hrg⟩ :=
              blobChunk_key_tree hwfo' (List.mem_map_of_mem Prod.fst hpr)
            unfold removedChange
            rw [blobChunk_blob_def, jsMapHas_eq_isSome, hre,
              jsMapGet_singleton_deep hn hrne hrg rfl]
            rfl
          have h2 : (blobChunk base (n, .tree es'')).filterMap
              (removedChange (blobChunk base (n, .blob b))) =
              (collectAllFiles (.tree es'') (joinPath base n)).map
                (fun f => ⟨f, .removed, 0, 0, none⟩) := by
            rw [@filterMap_all_some _ (blobChunk base (n, .tree es''))
              (removedChange (blobChunk base (n, .blob b)))
              (fun pr => ⟨pr.1, .removed, 0, 0, none⟩) hfn]
            rw [collectAllFiles_eq (joinPath base n), ← blobChunk_tree_def,
              List.map_map]
            rfl
          rw [h1, h2]
          exact List.perm_append_comm
      | tree es' =>
        cases o' with
        | blob b' =>
          have hfa : ∀ pr ∈ blobChunk base (n, .tree es'),
              addModChange (blobChunk base (n, .blob b')) pr =
                some ⟨pr.1, .added, 0, 0, none⟩ := by
            intro pr hpr
            obtain ⟨r, hrne, hre, hrg⟩ :=
              blobChunk_key_tree hwobj (List.mem_map_of_mem Prod.fst hpr)
            unfold addModChange
            rw [blobChunk_blob_def, hre, jsMapGet_singleton_deep hn hrne hrg rfl]
          have h1 : (blobChunk base (n, .tree es')).filterMap
              (addModChange (blobChunk base (n, .blob b'))) =
              (collectAllFiles (.tree es') (joinPath base n)).map
                (fun f => ⟨f, .added, 0, 0, none⟩) := by
            rw [@filterMap_all_some _ (blobChunk base (n, .tree es'))
              (addModChange (blobChunk base (n, .blob b')))
              (fun pr => ⟨pr.1, .added, 0, 0, none⟩) hfa]
            rw [collectAllFiles_eq (joinPath base n), ← blobChunk_tree_def,
              List.map_map]
            rfl
          have h2 : (blobChunk base (n, .blob b')).filterMap
              (removedChange (blobChunk base (n, .tree es'))) =
              [⟨joinPath base n, .removed, 0, 0, none⟩] := by
            rw [blobChunk_blob_def]
            have hv : removedChange (blobChunk base (n, .tree es'))
                (joinPath base n, b') = some ⟨joinPath base n, .removed, 0, 0, none⟩ := by
              unfold removedChange
              rw [if_neg]
              rw [jsMapHas_eq_isSome,
                show ((joinPath base n, b').1 : String) = joinPath base n from rfl,
                jsMapGet_tree_chunk_at_join hwobj hn]
              simp
            simp [List.filterMap, hv]
          rw [h1, h2]
          exact List.perm_append_comm
        | tree es'' =>
          have hperm := ihsub (some (.tree es'')) (joinPath base n) hwfo'
          rw [diffTrees_eq] at hperm
          refine hperm.trans (perm_of_eq ?_)
          rw [blobChunk_tree_def, blobChunk_tree_def]
          rfl

/-- `removedPass` over the real entries: an old entry whose name survives in
the new tree contributes nothing; one whose name is gone contributes its
blobs as the flattened-map differ's removed changes do. -/
theorem removedPass_chunks
    {oldEntries newEs : List (String × GitObj)} {base : String}
    (hogood : ∀ e ∈ oldEntries, goodName e.1 = true)
    (howf : ∀ e ∈ oldEntries, wfTree e.2 = true)
    (hnnames : (newEs.map Prod.fst).Nodup)
    (hngood : ∀ e ∈ newEs, goodName e.1 = true)
    (hnwf : ∀ e ∈ newEs, wfTree e.2 = true) :
    removedPass oldEntries (entryMap newEs) base =
      oldEntries.flatMap (fun e =>
        if e.1 ∈ newEs.map Prod.fst then []
        else (blobChunk base e).filterMap
          (removedChange (blobsEntries newEs base))) := by
  rw [removedPass_eq_flatMap]
  refine List.flatMap_congr ?_
  intro e he
  rw [entryMap_eq_self hnnames]
  unfold remChunk
  by_cases hin : e.1 ∈ newEs.map Prod.fst
  · rw [if_pos (jsMapHas_iff.mpr hin), if_pos hin]
  · have hhas : jsMapHas newEs e.1 = false := jsMapHas_eq_false.mpr hin
    rw [if_neg (by simp [hhas]), if_neg hin]
    have hrem : ∀ pr ∈ blobChunk base e,
        removedChange (blobsEntries newEs base) pr =
          some ⟨pr.1, .removed, 0, 0, none⟩ := by
      intro pr hpr
      obtain ⟨r, hre, hrg⟩ :=
        blobChunk_key (howf e he) (List.mem_map_of_mem Prod.fst hpr)
      unfold removedChange
      rw [hre, jsMapHas_blobsEntries_under hnnames hngood hnwf (hogood e he) hrg,
        jsMapGet_eq_none.mpr hin]
      rfl
    rw [@filterMap_all_some _ (blobChunk base e)
      (removedChange (blobsEntries newEs base))
      (fun pr => ⟨pr.1, .removed, 0, 0, none⟩) hrem]
    obtain ⟨n, o⟩ := e
    cases o with
    | blob b => rfl
    | tree es' =>
      show (collectAllFiles (GitObj.tree es') (joinPath base n)).map
          (fun f => (⟨f, .removed, 0, 0, none⟩ : FileChange)) =
        (blobChunk base (n, GitObj.tree es')).map
          (fun pr => (⟨pr.1, .removed, 0, 0, none⟩ : FileChange))
      rw [collectAllFiles_eq (joinPath base n), blobChunk_tree_def, List.map_map]
      rfl

theorem flatMap_drop_empty_entries (l : List (String × GitObj))
    (p : String × GitObj → Bool) (g : String × GitObj → List FileChange)
    (h : ∀ e ∈ l, p e = false → g e = []) :
    l.flatMap g = (l.filter p).flatMap g := by
  induction l with
  | nil => rfl
  | cons hd tl ih =>
    rw [List.flatMap_cons, List.filter_cons,
      ih (fun e he => h e (List.mem_cons_of_mem _ he))]
    by_cases hp : p hd
    · simp [hp]
    · rw [if_neg hp, h hd (by simp) (by simpa using hp)]
      simp

theorem flatMap_if_mem_filter (l : List (String × GitObj)) (ns : List String)
    (f : String × GitObj → List FileChange) :
    l.flatMap (fun e => if e.1 ∈ ns then [] else f e) =
      (l.filter (fun e => !(decide (e.1 ∈ ns)))).flatMap f := by
  induction l with
  | nil => rfl
  | cons hd tl ih =>
    rw [List.flatMap_cons, List.filter_cons, ih]
    by_cases h : hd.1 ∈ ns <;> simp [h]

/-- Reindexing: the removed changes of the flattened-map differ are, as a
multiset, the removed chunks routed through the new-entries loop (for old
entries whose name survives) plus the removed-entries pass. -/
theorem reindex_perm
    {oldEntries newEs : List (String × GitObj)} {base : String}
    (honames : (oldEntries.map Prod.fst).Nodup)
    (hogood : ∀ e ∈ oldEntries, goodName e.1 = true)
    (howf : ∀ e ∈ oldEntries, wfTree e.2 = true)
    (hnnames : (newEs.map Prod.fst).Nodup)
    (hngood : ∀ e ∈ newEs, goodName e.1 = true)
    (hnwf : ∀ e ∈ newEs, wfTree e.2 = true) :
    List.Perm
      ((blobsEntries oldEntries base).filterMap
        (removedChange (blobsEntries newEs base)))
      (newEs.flatMap (fun e =>
          match jsMapGet oldEntries e.1 with
          | none => []
          | some o' => (blobChunk base (e.1, o')).filterMap
              (removedChange (blobsEntries newEs base))) ++
        removedPass oldEntries (entryMap newEs) base) := by
  have key : ∀ (R : String × String → Option FileChange),
      List.Perm
        ((blobsEntries oldEntries base).filterMap R)
        (newEs.flatMap (fun e => oldLookupChunk oldEntries base R e.1) ++
          oldEntries.flatMap (fun e =>
            if e.1 ∈ newEs.map Prod.fst then []
            else (blobChunk base e).filterMap R)) := by
    intro R
    have h1 : (blobsEntries oldEntries base).filterMap R =
        oldEntries.flatMap (fun e => (blobChunk base e).filterMap R) := by
      rw [blobsEntries_eq_flatMap, List.filterMap_flatMap]
    rw [h1]
    have hsplit := List.filter_append_perm
      (fun e => decide (e.1 ∈ newEs.map Prod.fst)) oldEntries
    refine (hsplit.symm.flatMap_right
      (fun e => (blobChunk base e).filterMap R)).trans ?_
    rw [List.flatMap_append]
    refine List.Perm.append ?_ (perm_of_eq ?_)
    · have hc1 : (oldEntries.filter
          (fun e => decide (e.1 ∈ newEs.map Prod.fst))).flatMap
            (fun e => (blobChunk base e).filterMap R) =
          (oldEntries.filter
            (fun e => decide (e.1 ∈ newEs.map Prod.fst))).flatMap
            (fun e => oldLookupChunk oldEntries base R e.1) := by
        refine List.flatMap_congr ?_
        intro e he
        have hget : jsMapGet oldEntries e.1 = some e.2 :=
          jsMapGet_of_nodup_mem honames (List.mem_of_mem_filter he)
        unfold oldLookupChunk
        simp only [hget]
      rw [hc1]
      have hc2 : newEs.flatMap (fun e => oldLookupChunk oldEntries base R e.1) =
          (newEs.filter (fun e => decide (e.1 ∈ oldEntries.map Prod.fst))).flatMap
            (fun e => oldLookupChunk oldEntries base R e.1) := by
        refine flatMap_drop_empty_entries _ _ _ ?_
        intro e he hfalse
        have hnm : e.1 ∉ oldEntries.map Prod.fst := by simpa using hfalse
        unfold oldLookupChunk
        rw [jsMapGet_eq_none.mpr hnm]
      rw [hc2]
      have hfst : ∀ (l : List (String × GitObj)),
          l.flatMap (fun e => oldLookupChunk oldEntries base R e.1) =
            (l.map Prod.fst).flatMap (oldLookupChunk oldEntries base R) :=
        fun l => (List.flatMap_map Prod.fst (oldLookupChunk oldEntries base R) l).symm
      rw [hfst, hfst]
      refine List.Perm.flatMap_right _ ?_
      have hmo : (oldEntries.filter
          (fun e => decide (e.1 ∈ newEs.map Prod.fst))).map Prod.fst =
          (oldEntries.map Prod.fst).filter
            (fun m => decide (m ∈ newEs.map Prod.fst)) :=
        (@List.filter_map (String × GitObj) String
          (fun m => decide (m ∈ newEs.map Prod.fst)) Prod.fst oldEntries).symm
      have hmn : (newEs.filter
          (fun e => decide (e.1 ∈ oldEntries.map Prod.fst))).map Prod.fst =
          (newEs.map Prod.fst).filter
            (fun m => decide (m ∈ oldEntries.map Prod.fst)) :=
        (@List.filter_map (String × GitObj) String
          (fun m => decide (m ∈ oldEntries.map Prod.fst)) Prod.fst newEs).symm
      rw [hmo, hmn]
      refine (List.perm_ext_iff_of_nodup (honames.filter _) (hnnames.filter _)).mpr ?_
      intro m
      simp only [List.mem_filter, decide_eq_true_eq]
      tauto
    · exact (flatMap_if_mem_filter oldEntries (newEs.map Prod.fst)
        (fun e => (blobChunk base e).filterMap R)).symm
  refine (key (removedChange (blobsEntries newEs base))).trans ?_
  refine List.Perm.append ?_ (perm_of_eq
    (removedPass_chunks hogood howf hnnames hngood hnwf).symm)
  exact perm_of_eq rfl

/-- The new-entries loop of the incremental differ produces, as a multiset,
the added/modified changes of the flattened-map differ plus the removed
chunks routed through surviving old entries. -/
theorem newPass_perm
    {oldEntries newEs : List (String × GitObj)} {base : String}
    (honames : (oldEntries.map Prod.fst).Nodup)
    (hogood : ∀ e ∈ oldEntries, goodName e.1 = true)
    (howf : ∀ e ∈ oldEntries, wfTree e.2 = true)
    (hnnames : (newEs.map Prod.fst).Nodup)
    (hngood : ∀ e ∈ newEs, goodName e.1 = true)
    (hnwf : ∀ e ∈ newEs, wfTree e.2 = true)
    (ihsubs : ∀ e ∈ newEs, ∀ (old? : Option GitObj) (b : String),
      wfOpt old? = true →
      List.Perm (diffTreesIncremental old? e.2 b)
        (diffTrees (blobsOpt old? b) (blobsB e.2 b))) :
    ∀ (es : List (String × GitObj)), (∀ e ∈ es, e ∈ newEs) →
    List.Perm (newPass es oldEntries base)
      ((es.flatMap (blobChunk base)).filterMap
          (addModChange (blobsEntries oldEntries base)) ++
        es.flatMap (fun e =>
          match jsMapGet oldEntries e.1 with
          | none => []
          | some o' => (blobChunk base (e.1, o')).filterMap
              (removedChange (blobsEntries newEs base)))) := by
  intro es
  induction es with
  | nil => intro _; exact perm_of_eq rfl
  | cons hd rest ih =>
    intro hsub
    obtain ⟨n, obj⟩ := hd
    have hmem : (n, obj) ∈ newEs := hsub (n, obj) (by simp)
    have h1 := @newChunk_perm oldEntries newEs base
      honames hogood howf hnnames hngood hnwf n obj hmem (ihsubs (n, obj) hmem)
    have h2 := ih (fun e he => hsub e (List.mem_cons_of_mem _ he))
    rw [newPass_cons, List.flatMap_cons, List.filterMap_append, List.flatMap_cons]
    exact (h1.append h2).trans (perm_append_middle _ _ _ _)

/-- The incremental differ (`diffTreesIncremental`) and the flattened-map
differ (`walkTree` + `diffTrees`) agree as multisets of changes, on
well-formed git trees. -/
theorem diff_incremental_eq_flat :
    ∀ (new : GitObj), wfTree new = true →
    ∀ (old? : Option GitObj), wfOpt old? = true → ∀ (base : String),
    List.Perm (diffTreesIncremental old? new base)
      (diffTrees (blobsOpt old? base) (blobsB new base)) := by
  intro new
  induction new using GitObj.inductionOn with
  | hblob oid =>
    intro _ old? hold base
    by_cases hid : old? = some (.blob oid)
    · subst hid
      rw [diffTreesIncremental_self]
      exact perm_of_eq rfl
    · rw [diffTreesIncremental_blob hid,
        removedPass_chunks (wfOpt_good hold) (wfOpt_wf hold)
          (by simp) (by simp) (by simp)]
      refine perm_of_eq ?_
      conv_rhs => rw [show blobsB (.blob oid) base = [] from rfl, diffTrees_eq,
        blobsOpt_eq, blobsEntries_eq_flatMap]
      rw [List.filterMap_nil, List.nil_append, List.filterMap_flatMap]
      refine List.flatMap_congr (fun e he => ?_)
      rw [if_neg (by simp)]
      rfl
  | htree es ih =>
    intro hwf old? hold base
    by_cases hid : old? = some (.tree es)
    · subst hid
      rw [diffTreesIncremental_self]
      refine perm_of_eq ?_
      rw [show blobsOpt (some (.tree es)) base = blobsB (.tree es) base from rfl,
        diffTrees_eq, filterMap_addMod_self (blobsB_keys_nodup hwf)
          (blobsB_oid_ne hwf), filterMap_removed_self]
      rfl
    · rw [diffTreesIncremental_tree hid]
      have honames := wfOpt_names hold
      have hogood := wfOpt_good hold
      have howf := wfOpt_wf hold
      have hn3 := wfTree_tree_iff.mp hwf
      rw [entryMap_eq_self honames]
      have hpass := @newPass_perm (readTreeSafeOpt old?) es base
        honames hogood howf hn3.1 hn3.2.1 hn3.2.2
        (fun e he old?' b hb => ih e he (hn3.2.2 e he) old?' hb b)
        es (fun e he => he)
      rw [← blobsEntries_eq_flatMap] at hpass
      have hrei := @reindex_perm (readTreeSafeOpt old?) es base
        honames hogood howf hn3.1 hn3.2.1 hn3.2.2
      rw [diffTrees_eq, blobsOpt_eq]
      have hbt : blobsB (.tree es) base = blobsEntries es base := rfl
      rw [hbt]
      refine (hpass.append_right _).trans ?_
      rw [List.append_assoc]
      exact List.Perm.append_left _ hrei.symm

theorem walkTreeOpt_eq {o? : Option GitObj} (h : wfOpt o? = true) :
    walkTreeOpt o? = blobsOpt o? "" := by
  cases o? with
  | none => rfl
  | some t => exact walkTree_eq h

/-- C2: for every pair of well-formed tree inputs (old tree possibly
absent), the flattened-map diff (`walkTree` + `diffTrees`) and the
incremental diff (`diffTreesIncremental`) produce the same set of
(filename, status) pairs. (The underlying lists even agree as multisets,
by `diff_incremental_eq_flat`.) -/
theorem c2_diff_strategies_agree (new : GitObj) (old? : Option GitObj)
    (hnew : wfTree new = true) (hold : wfOpt old? = true)
    (p : String × ChangeStatus) :
    p ∈ (diffTreesIncremental old? new "").map (fun c => (c.filename, c.status)) ↔
    p ∈ (diffTrees (walkTreeOpt old?) (walkTree new)).map
        (fun c => (c.filename, c.status)) := by
  have h := diff_incremental_eq_flat new hnew old? hold ""
  rw [walkTreeOpt_eq hold, walkTree_eq hnew]
  exact (h.map (fun c => (c.filename, c.status))).mem_iff

theorem c2_witness :
    wfTree (.tree [("a", .blob "x")]) = true ∧
    wfOpt (some (.tree [("b", .blob "y")])) = true ∧
    ((("a", ChangeStatus.added) ∈
        (diffTreesIncremental (some (.tree [("b", .blob "y")]))
          (.tree [("a", .blob "x")]) "").map (fun c => (c.filename, c.status))) ↔
      (("a", ChangeStatus.added) ∈
        (diffTrees (walkTreeOpt (some (.tree [("b", .blob "y")])))
          (walkTree (.tree [("a", .blob "x")]))).map
            (fun c => (c.filename, c.status)))) :=
  ⟨by decide, by decide,
    c2_diff_strategies_agree (.tree [("a", .blob "x")])
      (some (.tree [("b", .blob "y")])) (by decide) (by decide)
      ("a", ChangeStatus.added)⟩

/-- C3: for two well-formed trees with disjoint path sets, the flattened-map
differ returns exactly one `added` change per path of the new tree followed
by one `removed` change per path of the old tree (an exact list, hence no
other entries, no duplicates and no omissions), and the incremental differ
returns a permutation of that same list. -/
theorem c3_disjoint_complete (oldT newT : GitObj)
    (hwo : wfTree oldT = true) (hwn : wfTree newT = true)
    (hdis : ∀ p, p ∈ (walkTree oldT).map Prod.fst →
      p ∉ (walkTree newT).map Prod.fst) :
    diffTrees (walkTree oldT) (walkTree newT) =
      (walkTree newT).map (fun pr => ⟨pr.1, .added, 0, 0, none⟩) ++
        (walkTree oldT).map (fun pr => ⟨pr.1, .removed, 0, 0, none⟩) ∧
    List.Perm (diffTreesIncremental (some oldT) newT "")
      ((walkTree newT).map (fun pr => ⟨pr.1, .added, 0, 0, none⟩) ++
        (walkTree oldT).map (fun pr => ⟨pr.1, .removed, 0, 0, none⟩)) := by
  have hflat : diffTrees (walkTree oldT) (walkTree newT) =
      (walkTree newT).map (fun pr => ⟨pr.1, .added, 0, 0, none⟩) ++
        (walkTree oldT).map (fun pr => ⟨pr.1, .removed, 0, 0, none⟩) := by
    rw [diffTrees_eq]
    have hadd : ∀ pr ∈ walkTree newT,
        addModChange (walkTree oldT) pr =
          some ⟨pr.1, .added, 0, 0, none⟩ := by
      intro pr hpr
      have hnotin : pr.1 ∉ (walkTree oldT).map Prod.fst := by
        intro hmem
        exact hdis pr.1 hmem (List.mem_map_of_mem Prod.fst hpr)
      unfold addModChange
      rw [jsMapGet_eq_none.mpr hnotin]
    have hrem : ∀ pr ∈ walkTree oldT,
        removedChange (walkTree newT) pr =
          some ⟨pr.1, .removed, 0, 0, none⟩ := by
      intro pr hpr
      have hnotin : pr.1 ∉ (walkTree newT).map Prod.fst :=
        hdis pr.1 (List.mem_map_of_mem Prod.fst hpr)
      unfold removedChange
      rw [if_neg (by simpa [jsMapHas_iff] using hnotin)]
    rw [@filterMap_all_some _ (walkTree newT) (addModChange (walkTree oldT))
        (fun pr => ⟨pr.1, .added, 0, 0, none⟩) hadd,
      @filterMap_all_some _ (walkTree oldT) (removedChange (walkTree newT))
        (fun pr => ⟨pr.1, .removed, 0, 0, none⟩) hrem]
  refine ⟨hflat, ?_⟩
  have h := diff_incremental_eq_flat newT hwn (some oldT) hwo ""
  rw [show blobsOpt (some oldT) "" = blobsB oldT "" from rfl,
    ← walkTree_eq hwo, ← walkTree_eq hwn] at h
  exact h.trans (perm_of_eq hflat)

theorem c3_witness :
    wfTree (GitObj.tree [("a", .blob "x")]) = true ∧
    wfTree (GitObj.tree [("b", .blob "y")]) = true ∧
    (∀ p, p ∈ (walkTree (.tree [("a", .blob "x")])).map Prod.fst →
      p ∉ (walkTree (.tree [("b", .blob "y")])).map Prod.fst) ∧
    (diffTrees (walkTree (.tree [("a", .blob "x")]))
        (walkTree (.tree [("b", .blob "y")])) =
      (walkTree (.tree [("b", .blob "y")])).map
          (fun pr => ⟨pr.1, .added, 0, 0, none⟩) ++
        (walkTree (.tree [("a", .blob "x")])).map
          (fun pr => ⟨pr.1, .removed, 0, 0, none⟩) ∧
      List.Perm (diffTreesIncremental (some (.tree [("a", .blob "x")]))
          (.tree [("b", .blob "y")]) "")
        ((walkTree (.tree [("b", .blob "y")])).map
            (fun pr => ⟨pr.1, .added, 0, 0, none⟩) ++
          (walkTree (.tree [("a", .blob "x")])).map
            (fun pr => ⟨pr.1, .removed, 0, 0, none⟩))) :=
  ⟨by decide, by decide,
    by
      intro p hp hq
      rw [show (walkTree (.tree [("a", .blob "x")])).map Prod.fst = ["a"] from rfl,
        List.mem_singleton] at hp
      rw [show (walkTree (.tree [("b", .blob "y")])).map Prod.fst = ["b"] from rfl,
        List.mem_singleton] at hq
      subst hp
      exact absurd hq (by decide),
    c3_disjoint_complete (.tree [("a", .blob "x")]) (.tree [("b", .blob "y")])
      (by decide) (by decide)
      (by
        intro p hp hq
        rw [show (walkTree (.tree [("a", .blob "x")])).map Prod.fst = ["a"] from rfl,
          List.mem_singleton] at hp
        rw [show (walkTree (.tree [("b", .blob "y")])).map Prod.fst = ["b"] from rfl,
          List.mem_singleton] at hq
        subst hp
        exact absurd hq (by decide))⟩

/-! ## No `renamed` status from either differ -/
theorem diffTrees_no_renamed (m₁ m₂ : List (String × String)) :
    ∀ c ∈ diffTrees m₁ m₂, c.status ≠ .renamed := by
  rw [diffTrees_eq]
  intro c hc
  rw [List.mem_append] at hc
  rcases hc with hc | hc
  · obtain ⟨pr, _, hf⟩ := List.mem_filterMap.mp hc
    unfold addModChange at hf
    cases hget : jsMapGet m₁ pr.1 with
    | none =>
      simp only [hget] at hf
      cases hf
      simp
    | some o =>
      simp only [hget] at hf
      by_cases h1 : o = ""
      · rw [if_pos h1] at hf
        cases hf
        simp
      · rw [if_neg h1] at hf
        by_cases h2 : o ≠ pr.2
        · rw [if_pos h2] at hf
          cases hf
          simp
        · rw [if_neg h2] at hf
          cases hf
  · obtain ⟨pr, _, hf⟩ := List.mem_filterMap.mp hc
    unfold removedChange at hf
    by_cases h : jsMapHas m₂ pr.1
    · rw [if_pos h] at hf
      cases hf
    · rw [if_neg h] at hf
      cases hf
      simp

theorem removedPass_no_renamed (oldTree newMap : List (String × GitObj))
    (base : String) : ∀ c ∈ removedPass oldTree newMap base,
      c.status ≠ .renamed := by
  rw [removedPass_eq_flatMap]
  intro c hc
  rw [List.mem_flatMap] at hc
  obtain ⟨e, _, hc⟩ := hc
  obtain ⟨nm, o⟩ := e
  unfold remChunk at hc
  by_cases h : jsMapHas newMap (nm, o).1
  · rw [if_pos h] at hc
    cases hc
  · rw [if_neg h] at hc
    cases o with
    | blob b =>
      simp only [List.mem_singleton] at hc
      subst hc
      simp
    | tree es =>
      simp only [List.mem_map] at hc
      obtain ⟨f, _, hc⟩ := hc
      subst hc
      simp

theorem newPass_no_renamed {es oldMap : List (String × GitObj)} {base : String}
    (ih : ∀ e ∈ es, ∀ (old? : Option GitObj) (b : String),
      ∀ c ∈ diffTreesIncremental old? e.2 b, c.status ≠ .renamed) :
    ∀ c ∈ newPass es oldMap base, c.status ≠ .renamed := by
  induction es with
  | nil => intro c hc; cases hc
  | cons hd rest ihr =>
    obtain ⟨n, obj⟩ := hd
    intro c hc
    rw [newPass_cons, List.mem_append] at hc
    rcases hc with hc | hc
    · show c.status ≠ .renamed
      unfold newChunk at hc
      cases hget : jsMapGet oldMap n with
      | none =>
        simp only [hget] at hc
        cases obj with
        | blob b =>
          simp only [List.mem_singleton] at hc
          subst hc
          simp
        | tree es' =>
          simp only [List.mem_map] at hc
          obtain ⟨f, _, hc⟩ := hc
          subst hc
          simp
      | some oldEntry =>
        simp only [hget] at hc
        by_cases heq : oldEntry = obj
        · rw [if_pos heq] at hc
          cases hc
        · rw [if_neg heq] at hc
          cases obj with
          | blob b =>
            cases oldEntry with
            | blob b' =>
              simp only [List.mem_singleton] at hc
              subst hc
              simp
            | tree es' =>
              simp only [List.mem_append, List.mem_singleton, List.mem_map] at hc
              rcases hc with hc | hc
              · obtain ⟨f, _, hc⟩ := hc
                subst hc
                simp
              · subst hc
                simp
          | tree es' =>
            cases oldEntry with
            | blob b' =>
              simp only [List.mem_append, List.mem_singleton, List.mem_map] at hc
              rcases hc with hc | hc
              · subst hc
                simp
              · obtain ⟨f, _, hc⟩ := hc
                subst hc
                simp
            | tree es'' =>
              exact ih (n, .tree es') (by simp) (some (.tree es''))
                (joinPath base n) c hc
    · exact ihr (fun e he => ih e (List.mem_cons_of_mem _ he)) c hc

theorem diffTreesIncremental_no_renamed :
    ∀ (newT : GitObj) (old? : Option GitObj) (base : String),
      ∀ c ∈ diffTreesIncremental old? newT base, c.status ≠ .renamed := by
  intro newT
  induction newT using GitObj.inductionOn with
  | hblob oid =>
    intro old? base c hc
    by_cases hid : old? = some (.blob oid)
    · rw [hid, diffTreesIncremental_self] at hc
      cases hc
    · rw [diffTreesIncremental_blob hid] at hc
      exact removedPass_no_renamed _ _ _ c hc
  | htree es ih =>
    intro old? base c hc
    by_cases hid : old? = some (.tree es)
    · rw [hid, diffTreesIncremental_self] at hc
      cases hc
    · rw [diffTreesIncremental_tree hid, List.mem_append] at hc
      rcases hc with hc | hc
      · exact newPass_no_renamed
          (fun e he old?' b => ih e he old?' b) c hc
      · exact removedPass_no_renamed _ _ _ c hc

/-- C4: neither differ ever emits a `renamed` change — every change of
`diffTrees` and of `diffTreesIncremental` has status `added`, `modified`
or `removed` (hence never `renamed`) — and the concrete rename-without-
content-change scenario (old tree holds `old.txt`, new tree holds
`new.txt` with the identical blob OID) is reported as an `added` change
for the new path and a `removed` change for the old path, not as a single
`renamed` entry. -/
theorem c4_never_renamed :
    (∀ (m₁ m₂ : List (String × String)), ∀ c ∈ diffTrees m₁ m₂,
      c.status ≠ .renamed) ∧
    (∀ (old? : Option GitObj) (newT : GitObj) (base : String),
      ∀ c ∈ diffTreesIncremental old? newT base, c.status ≠ .renamed) ∧
    (diffTrees (walkTree (.tree [("old.txt", .blob "x")]))
        (walkTree (.tree [("new.txt", .blob "x")]))).map
          (fun c => (c.filename, c.status)) =
      [("new.txt", .added), ("old.txt", .removed)] :=
  ⟨diffTrees_no_renamed,
    fun old? newT base => diffTreesIncremental_no_renamed newT old? base,
    by decide⟩

theorem c4_witness :
    ((⟨"a", .added, 0, 0, none⟩ : FileChange) ∈ diffTrees [] [("a", "x")]) ∧
    (⟨"a", .added, 0, 0, none⟩ : FileChange).status ≠ .renamed :=
  ⟨by decide, c4_never_renamed.1 [] [("a", "x")] _ (by decide)⟩

/-- C8: contrary to the spec, `seek(0)` on an empty commit list does not
return the empty root tree and empty author map: the replay loop reads
`commits[0]` (which is `undefined`) and `applyCommitToTree` throws on
`commit.author` — modelled as `none` — so the seek fails instead of
yielding the empty state `some (createFileTree, [])`. -/
theorem c8_seek_zero_empty_crashes : handleSeek [] 0 = none := rfl

theorem removeAux_false : ∀ (node : FileNode) (parts : List String),
    (removeAux node parts).2 = false → (removeAux node parts).1 = node
  | node, [] => fun _ => rfl
  | node, [fileName] => by
    intro h
    unfold removeAux at h ⊢
    cases hcs : node.children with
    | none => simp only [hcs]
    | some cs =>
      simp only [hcs] at h ⊢
      cases hidx : findIdxByName cs fileName with
      | none => simp only [hidx]
      | some i =>
        simp only [hidx] at h
        exact Bool.noConfusion h
  | node, part :: part₂ :: rest => by
    intro h
    unfold removeAux at h ⊢
    cases hcs : node.children with
    | none => simp only [hcs]
    | some cs =>
      simp only [hcs] at h ⊢
      cases hf : findByName cs part with
      | none => simp only [hf]
      | some child =>
        simp only [hf] at h ⊢
        by_cases hr : (removeAux child (part₂ :: rest)).2
        · simp [hr] at h
        · rw [if_neg hr] at h ⊢

/-- C10: whenever `removeFileFromTree` reports failure (`false`), the
returned tree is the input tree unchanged — every failure exit of the
removal happens before any mutation, so failure is atomic. -/
theorem c10_remove_failure_atomic (root : FileNode) (filepath : String)
    (h : (removeFileFromTree root filepath).2 = false) :
    (removeFileFromTree root filepath).1 = root :=
  removeAux_false root (splitPath filepath) h

theorem c10_witness :
    (removeFileFromTree createFileTree "a").2 = false ∧
    (removeFileFromTree createFileTree "a").1 = createFileTree :=
  ⟨rfl, c10_remove_failure_atomic createFileTree "a" rfl⟩

/-! ## Erasing the transient stamps (status, lastModified, lastAuthor) -/

theorem stripTags_name (x : FileNode) : (stripTags x).name = x.name := by
  cases x
  rfl

theorem stripTags_setStatus (n : FileNode) (st : NodeStatus) :
    stripTags (n.setStatus st) = stripTags n := by
  cases n
  rfl

theorem stripTags_stamp (n : FileNode) (st : NodeStatus) (d k : String) :
    stripTags (n.stamp st d k) = stripTags n := by
  cases n
  rfl

theorem stripTags_children : ∀ (n : FileNode),
    (stripTags n).children =
      match n.children with
      | none => none
      | some l => some (stripTagsList l)
  | .mk i nm p t cs m a s c => by cases cs <;> rfl

theorem stripTags_setChildren_eq : ∀ (node : FileNode) (cs l : List FileNode),
    node.children = some cs → stripTagsList l = stripTagsList cs →
    stripTags (node.setChildren (some l)) = stripTags node
  | .mk i n p t cso m a s c, cs, l => by
    intro hcs hl
    cases hcs
    show FileNode.mk i n p t (some (stripTagsList l)) none none none c =
      FileNode.mk i n p t (some (stripTagsList cs)) none none none c
    rw [hl]

theorem setChildren_self {node : FileNode} {cs : List FileNode}
    (h : node.children = some cs) : node.setChildren (some cs) = node := by
  cases node
  cases h
  rfl

/-- Replacing the first child of a given name with a stamp-equal node leaves
the stripped children unchanged. -/
theorem stripTagsList_replace :
    ∀ (cs : List FileNode) (nm : String) (child c' : FileNode),
    findByName cs nm = some child → stripTags c' = stripTags child →
    stripTagsList (replaceFirstByName cs nm c') = stripTagsList cs
  | [], _, _, _ => by intro hfind _; cases hfind
  | x :: tl, nm, child, c' => by
    intro hfind hstrip
    unfold findByName at hfind
    rw [List.find?_cons] at hfind
    unfold replaceFirstByName
    by_cases hx : x.name == nm
    · rw [hx] at hfind
      rw [if_pos hx]
      cases hfind
      show stripTags c' :: stripTagsList tl = stripTags x :: stripTagsList tl
      rw [hstrip]
    · rw [Bool.not_eq_true] at hx
      rw [hx] at hfind
      rw [if_neg (by simp [hx])]
      show stripTags x :: stripTagsList (replaceFirstByName tl nm c') =
        stripTags x :: stripTagsList tl
      rw [stripTagsList_replace tl nm child c' hfind hstrip]

/-- Stamping a node somewhere inside the tree does not change the stripped
tree: `updateInTree` with a stamp-only edit is invisible to `stripTags`. -/
theorem stripTags_updateInTree (f : FileNode → FileNode)
    (hf : ∀ n, stripTags (f n) = stripTags n) :
    ∀ (parts : List String) (node : FileNode),
      stripTags (updateInTree node parts f) = stripTags node
  | [], node => hf node
  | part :: rest, node => by
    unfold updateInTree
    cases hcs : node.children with
    | none => simp only [hcs]
    | some cs =>
      simp only [hcs]
      cases hfind : findByName cs part with
      | none => simp only [hfind]
      | some child =>
        simp only [hfind]
        exact stripTags_setChildren_eq node cs _ hcs
          (stripTagsList_replace cs part child _ hfind
            (stripTags_updateInTree f hf rest child))

theorem findByName_replace_self :
    ∀ (cs : List FileNode) (nm : String) (child c' : FileNode),
    findByName cs nm = some child → c'.name = child.name →
    findByName (replaceFirstByName cs nm c') nm = some c'
  | [], _, _, _ => by intro hfind _; cases hfind
  | x :: tl, nm, child, c' => by
    intro hfind hname
    unfold findByName at hfind ⊢
    rw [List.find?_cons] at hfind
    unfold replaceFirstByName
    by_cases hx : x.name == nm
    · rw [hx] at hfind
      cases hfind
      rw [if_pos hx]
      rw [List.find?_cons]
      have : (c'.name == nm) = true := by
        rw [hname]
        exact hx
      rw [this]
    · rw [Bool.not_eq_true] at hx
      rw [hx] at hfind
      rw [if_neg (by simp [hx])]
      rw [List.find?_cons, hx]
      exact findByName_replace_self tl nm child c' hfind hname

theorem updateInTree_name (f : FileNode → FileNode)
    (hname : ∀ n, (f n).name = n.name) :
    ∀ (parts : List String) (node : FileNode),
      (updateInTree node parts f).name = node.name
  | [], node => hname node
  | part :: rest, node => by
    unfold updateInTree
    cases hcs : node.children with
    | none => rfl
    | some cs =>
      cases hfind : findByName cs part with
      | none => simp only [hfind]
      | some child =>
        simp only [hfind]
        cases node with
        | mk i n p t cso m a s c => rfl

/-- Descending the same path after an in-place edit finds the edited node. -/
theorem findAux_updateInTree (f : FileNode → FileNode)
    (hname : ∀ n, (f n).name = n.name) :
    ∀ (parts : List String) (node target : FileNode),
      findAux node parts = some target →
      findAux (updateInTree node parts f) parts = some (f target)
  | [], node, target => by
    intro h
    cases h
    rfl
  | part :: rest, node, target => by
    intro h
    obtain ⟨i, n, p, t, cso, m, a, s, c⟩ := node
    cases cso with
    | none => exact Option.noConfusion h
    | some cs =>
      replace h : (match findByName cs part with
        | none => none
        | some child => findAux child rest) = some target := h
      rw [show updateInTree (FileNode.mk i n p t (some cs) m a s c) (part :: rest) f =
        (match findByName cs part with
         | none => FileNode.mk i n p t (some cs) m a s c
         | some child => (FileNode.mk i n p t (some cs) m a s c).setChildren
             (some (replaceFirstByName cs part (updateInTree child rest f)))) from rfl]
      cases hfind : findByName cs part with
      | none =>
        rw [hfind] at h
        exact Option.noConfusion h
      | some child =>
        rw [hfind] at h
        have hstep := findAux_updateInTree f hname rest child target h
        have hn : (updateInTree child rest f).name = child.name :=
          updateInTree_name f hname rest child
        have hcname : child.name = part := by
          unfold findByName at hfind
          simpa using List.find?_some hfind
        show (match findByName (replaceFirstByName cs part (updateInTree child rest f)) part with
          | none => none
          | some child => findAux child rest) = some (f target)
        rw [findByName_replace_self cs part child _ hfind (by rw [hn, hcname])]
        exact hstep

/-- C7: a `removed` change whose path resolves to an existing node only
stamps: the step returns the tree with that node's status set to
`removed` and appends the path to the `modifiedNodes` list; the stripped
tree — ids, names, paths, types, colors and every node's children list —
is unchanged, and the stamped node is still present at the same path. -/
theorem c7_removed_is_stamp_only (commit : Commit) (authorKey : String)
    (root : FileNode) (acc : List String) (file : FileChange)
    (hst : file.status = .removed)
    (node : FileNode) (hfind : findFileInTree root file.filename = some node) :
    applyFileChange commit authorKey (root, acc) file =
      (updateInTree root (splitPath file.filename) (fun n => n.setStatus .removed),
        acc ++ [file.filename]) ∧
    stripTags (applyFileChange commit authorKey (root, acc) file).1 =
      stripTags root ∧
    findFileInTree (applyFileChange commit authorKey (root, acc) file).1
        file.filename = some (node.setStatus .removed) := by
  have hev : applyFileChange commit authorKey (root, acc) file =
      (updateInTree root (splitPath file.filename) (fun n => n.setStatus .removed),
        acc ++ [file.filename]) := by
    unfold applyFileChange
    rw [hst]
    simp only [hfind]
  refine ⟨hev, ?_, ?_⟩
  · rw [hev]
    exact stripTags_updateInTree _ (fun n => stripTags_setStatus n _) _ root
  · rw [hev]
    exact findAux_updateInTree _ (fun n => by cases n; rfl) _ root node hfind

theorem c7_witness :
    ((⟨"f", .removed, 0, 0, none⟩ : FileChange).status = .removed ∧
      findFileInTree (addFileToTree createFileTree "f").1 "f" =
        some (FileNode.mk "f" "f" "f" .file none none none none
          (some (getFileColor "f")))) ∧
    (applyFileChange ⟨"s", "m", ⟨"n", "e", none, none, "d"⟩, []⟩ "e"
        ((addFileToTree createFileTree "f").1, []) ⟨"f", .removed, 0, 0, none⟩ =
      (updateInTree (addFileToTree createFileTree "f").1 (splitPath "f")
          (fun n => n.setStatus .removed), [] ++ ["f"]) ∧
      stripTags (applyFileChange ⟨"s", "m", ⟨"n", "e", none, none, "d"⟩, []⟩ "e"
          ((addFileToTree createFileTree "f").1, []) ⟨"f", .removed, 0, 0, none⟩).1 =
        stripTags (addFileToTree createFileTree "f").1 ∧
      findFileInTree (applyFileChange ⟨"s", "m", ⟨"n", "e", none, none, "d"⟩, []⟩ "e"
          ((addFileToTree createFileTree "f").1, []) ⟨"f", .removed, 0, 0, none⟩).1 "f" =
        some ((FileNode.mk "f" "f" "f" .file none none none none
          (some (getFileColor "f"))).setStatus .removed)) :=
  ⟨⟨rfl, rfl⟩,
    c7_removed_is_stamp_only ⟨"s", "m", ⟨"n", "e", none, none, "d"⟩, []⟩ "e"
      (addFileToTree createFileTree "f").1 [] ⟨"f", .removed, 0, 0, none⟩ rfl
      (FileNode.mk "f" "f" "f" .file none none none none (some (getFileColor "f")))
      rfl⟩

theorem applyFileChange_removed_missing (commit : Commit) (authorKey : String)
    (st : FileNode × List String) (e : FileChange)
    (hst : e.status = .removed)
    (hun : findFileInTree st.1 e.filename = none) :
    applyFileChange commit authorKey st e = st := by
  unfold applyFileChange
  rw [hst]
  simp only [hun]

/-- C9: an unresolvable entry is skipped and the rest of the commit is
still processed — for a `removed` change whose path does not resolve in
the tree reached at its turn, the whole file-change loop behaves exactly
as if that entry were absent: same final tree and same returned
`modifiedNodes` list (in particular the entry contributes no node). -/
theorem c9_unresolvable_entry_skipped (commit : Commit) (authorKey : String)
    (xs ys : List FileChange) (e : FileChange) (root : FileNode)
    (hst : e.status = .removed)
    (hun : findFileInTree
      ((xs.foldl (applyFileChange commit authorKey) (root, [])).1) e.filename = none) :
    (xs ++ e :: ys).foldl (applyFileChange commit authorKey) (root, []) =
      (xs ++ ys).foldl (applyFileChange commit authorKey) (root, []) := by
  rw [List.foldl_append, List.foldl_append, List.foldl_cons,
    applyFileChange_removed_missing commit authorKey _ e hst hun]

theorem c9_witness :
    (⟨"g", .removed, 0, 0, none⟩ : FileChange).status = .removed ∧
    findFileInTree
      (([(⟨"f", .added, 0, 0, none⟩ : FileChange)].foldl
        (applyFileChange (⟨"s", "m", ⟨"n", "e", none, none, "d"⟩,
          [⟨"f", .added, 0, 0, none⟩, ⟨"g", .removed, 0, 0, none⟩]⟩ : Commit) "e")
        (createFileTree, [])).1) "g" = none ∧
    ([(⟨"f", .added, 0, 0, none⟩ : FileChange)] ++
        (⟨"g", .removed, 0, 0, none⟩ : FileChange) :: [(⟨"h", .added, 0, 0, none⟩ : FileChange)]).foldl
        (applyFileChange (⟨"s", "m", ⟨"n", "e", none, none, "d"⟩,
          [⟨"f", .added, 0, 0, none⟩, ⟨"g", .removed, 0, 0, none⟩]⟩ : Commit) "e")
        (createFileTree, []) =
      ([(⟨"f", .added, 0, 0, none⟩ : FileChange)] ++ [(⟨"h", .added, 0, 0, none⟩ : FileChange)]).foldl
        (applyFileChange (⟨"s", "m", ⟨"n", "e", none, none, "d"⟩,
          [⟨"f", .added, 0, 0, none⟩, ⟨"g", .removed, 0, 0, none⟩]⟩ : Commit) "e")
        (createFileTree, []) :=
  ⟨rfl, rfl,
    c9_unresolvable_entry_skipped
      (⟨"s", "m", ⟨"n", "e", none, none, "d"⟩,
        [⟨"f", .added, 0, 0, none⟩, ⟨"g", .removed, 0, 0, none⟩]⟩ : Commit) "e"
      [(⟨"f", .added, 0, 0, none⟩ : FileChange)] [(⟨"h", .added, 0, 0, none⟩ : FileChange)]
      ⟨"g", .removed, 0, 0, none⟩ createFileTree rfl rfl⟩

/-! ## Seek = full replay (C1) -/

theorem seek_foldlM_eq (commits : List Commit) :
    ∀ (n : Nat) (st : FileNode × List (String × Author)),
    (List.range n).foldlM
      (fun st i => match commits[i]? with
        | none => none
        | some c => some (replayStep st c)) st =
      if n ≤ commits.length then some ((commits.take n).foldl replayStep st)
      else (none : Option (FileNode × List (String × Author))) := by
  intro n
  induction n with
  | zero => intro st; simp
  | succ k ih =>
    intro st
    rw [List.range_succ, List.foldlM_append, ih st]
    by_cases hk : k ≤ commits.length
    · rw [if_pos hk]
      by_cases hklt : k < commits.length
      · have hsome : commits[k]? = some commits[k] := List.getElem?_eq_getElem hklt
        rw [if_pos (Nat.succ_le_of_lt hklt)]
        simp only [Option.bind_eq_bind, Option.some_bind, List.foldlM_cons,
          List.foldlM_nil, hsome, List.take_succ, List.foldl_append]
        rfl
      · have hkeq : k = commits.length := Nat.le_antisymm hk (Nat.le_of_not_lt hklt)
        have hnone : commits[k]? = none := by
          rw [List.getElem?_eq_none]
          omega
        rw [if_neg (by omega)]
        simp only [Option.bind_eq_bind, Option.some_bind, List.foldlM_cons, hnone]
        rfl
    · rw [if_neg hk, if_neg (by omega)]
      rfl

theorem handleSeek_eq_specReplay (commits : List Commit) (k : Nat) :
    handleSeek commits k = specReplay commits k := by
  unfold handleSeek specReplay
  rw [seek_foldlM_eq commits (k + 1) (createFileTree, [])]
  by_cases h : k < commits.length
  · rw [if_pos (Nat.succ_le_of_lt h), if_pos h]
  · rw [if_neg (fun hc => h (Nat.lt_of_succ_le hc)), if_neg h]

theorem deserializeList_serializeList (l : List FileNode)
    (ih : ∀ x ∈ l, deserializeTree (serializeTree x) = x) :
    deserializeList (serializeList l) = l := by
  induction l with
  | nil => rfl
  | cons hd tl ihl =>
    show deserializeTree (serializeTree hd) :: deserializeList (serializeList tl) =
      hd :: tl
    rw [ih hd (by simp), ihl (fun x hx => ih x (List.mem_cons_of_mem _ hx))]

/-- A snapshot restores exactly the tree it serialized. -/
theorem deserialize_serialize : ∀ (t : FileNode),
    deserializeTree (serializeTree t) = t := by
  intro t
  induction t using FileNode.inductionOn with
  | h i n p ty cs m a s c ih =>
    cases cs with
    | none => rfl
    | some l =>
      show FileNode.mk i n p ty (some (deserializeList (serializeList l))) m a s c =
        FileNode.mk i n p ty (some l) m a s c
      rw [deserializeList_serializeList l (ih l rfl)]

theorem seekFromSnapshot_eq_specReplay (commits : List Commit) (j k : Nat)
    (hjk : j ≤ k) (hk : k < commits.length) :
    seekFromSnapshot commits j k = specReplay commits k := by
  have hj : j < commits.length := Nat.lt_of_le_of_lt hjk hk
  have hsj : specReplay commits j =
      some ((commits.take (j + 1)).foldl replayStep (createFileTree, [])) := by
    unfold specReplay
    rw [if_pos hj]
  unfold seekFromSnapshot
  rw [hsj]
  show some (((commits.drop (j + 1)).take (k - j)).foldl replayStep
      (deserializeTree (serializeTree
        ((commits.take (j + 1)).foldl replayStep (createFileTree, [])).1),
       ((commits.take (j + 1)).foldl replayStep (createFileTree, [])).2)) =
    specReplay commits k
  rw [deserialize_serialize]
  unfold specReplay
  rw [if_pos hk]
  have hsplit : commits.take (k + 1) =
      commits.take (j + 1) ++ (commits.drop (j + 1)).take (k - j) := by
    rw [← List.take_add]
    congr 1
    omega
  rw [hsplit, List.foldl_append]

/-- C1: `seek(k)` is a full replay — `handleSeek` replays commits `[0..k]`
from the empty tree and empty author map for every commit sequence and
every target index (it never consults a snapshot), and the (spec-modelled)
snapshot-based reconstruction starting from any snapshot index `j ≤ k`
produces the identical state, so the result is independent of which
snapshots exist and which is used. -/
theorem c1_seek_is_full_replay :
    (∀ (commits : List Commit) (k : Nat),
      handleSeek commits k = specReplay commits k) ∧
    (∀ (commits : List Commit) (j k : Nat), j ≤ k → k < commits.length →
      seekFromSnapshot commits j k = specReplay commits k) :=
  ⟨handleSeek_eq_specReplay, seekFromSnapshot_eq_specReplay⟩

theorem c1_witness :
    ((0 : Nat) ≤ 0 ∧
      0 < ([(⟨"s", "m", ⟨"n", "e", none, none, "d"⟩, []⟩ : Commit)]).length) ∧
    handleSeek [(⟨"s", "m", ⟨"n", "e", none, none, "d"⟩, []⟩ : Commit)] 0 =
      specReplay [(⟨"s", "m", ⟨"n", "e", none, none, "d"⟩, []⟩ : Commit)] 0 ∧
    seekFromSnapshot [(⟨"s", "m", ⟨"n", "e", none, none, "d"⟩, []⟩ : Commit)] 0 0 =
      specReplay [(⟨"s", "m", ⟨"n", "e", none, none, "d"⟩, []⟩ : Commit)] 0 :=
  ⟨⟨by decide, by decide⟩,
    c1_seek_is_full_replay.1 [⟨"s", "m", ⟨"n", "e", none, none, "d"⟩, []⟩] 0,
    c1_seek_is_full_replay.2 [⟨"s", "m", ⟨"n", "e", none, none, "d"⟩, []⟩] 0 0
      (by decide) (by decide)⟩

/-! ## Re-applying a commit (C5) -/

/-- The claim is false as stated for commits containing `renamed` entries:
starting from the tree holding only `a/a`, the commit
`[added "a", renamed "b" (from "a/a")]` yields the path set `{b}` on the
first apply (the `added` entry only re-stamps the existing directory `a`,
and the rename then deletes `a/a` and cascade-deletes `a`), but the path
set `{b, a}` on the second apply (this time `added "a"` creates a file
node `a`, which the rename's removal of `a/a` cannot delete). -/
theorem c5_counterexample :
    pathsOf ((applyCommitToTree
        (addFileToTree createFileTree "a/a").1
        ⟨"s", "m", ⟨"n", "e", none, none, "d"⟩,
          [⟨"a", .added, 0, 0, none⟩, ⟨"b", .renamed, 0, 0, some "a/a"⟩]⟩
        []).tree) = ["b"] ∧
    pathsOf ((applyCommitToTree
        ((applyCommitToTree
          (addFileToTree createFileTree "a/a").1
          ⟨"s", "m", ⟨"n", "e", none, none, "d"⟩,
            [⟨"a", .added, 0, 0, none⟩, ⟨"b", .renamed, 0, 0, some "a/a"⟩]⟩
          []).tree)
        ⟨"s", "m", ⟨"n", "e", none, none, "d"⟩,
          [⟨"a", .added, 0, 0, none⟩, ⟨"b", .renamed, 0, 0, some "a/a"⟩]⟩
        []).tree) = ["b", "a"] ∧
    ("a" : String) ∉ (["b"] : List String) :=
  ⟨rfl, rfl, by decide⟩

theorem setChildren_name (node : FileNode) (cs : Option (List FileNode)) :
    (node.setChildren cs).name = node.name := by
  cases node
  rfl

theorem addAux_shape : ∀ (parts done : List String) (node : FileNode),
    (addAux node done parts).1 = node ∨
    ∃ l, (addAux node done parts).1 = node.setChildren (some l)
  | [], _, node => Or.inl rfl
  | part :: rest, done, node => by
    right
    unfold addAux
    cases hf : findByName (node.children.getD []) part with
    | some child =>
      by_cases hi : rest.isEmpty
      · simp only [hf, hi]
        exact ⟨_, rfl⟩
      · simp only [hf, if_neg hi]
        exact ⟨_, rfl⟩
    | none =>
      by_cases hi : rest.isEmpty
      · simp only [hf, hi]
        exact ⟨_, rfl⟩
      · simp only [hf, if_neg hi]
        exact ⟨_, rfl⟩

theorem addAux_name (parts done : List String) (node : FileNode) :
    (addAux node done parts).1.name = node.name := by
  rcases addAux_shape parts done node with h | ⟨l, h⟩
  · rw [h]
  · rw [h, setChildren_name]

theorem addAux_snd_isSome : ∀ (parts done : List String) (node : FileNode),
    parts ≠ [] → ∃ x, (addAux node done parts).2 = some x
  | [], _, _ => fun h => absurd rfl h
  | [part], done, node => by
    intro _
    unfold addAux
    cases hf : findByName (node.children.getD []) part with
    | some child => exact ⟨child, by simp [hf]⟩
    | none =>
      refine ⟨FileNode.mk (String.intercalate "/" (done ++ [part])) part
        (String.intercalate "/" (done ++ [part])) .file none none none none
        (some (getFileColor part)), ?_⟩
      simp [hf]
  | part :: part₂ :: rest, done, node => by
    intro _
    unfold addAux
    have hne : part₂ :: rest ≠ [] := by simp
    cases hf : findByName (node.children.getD []) part with
    | some child =>
      obtain ⟨x, hx⟩ := addAux_snd_isSome (part₂ :: rest) (done ++ [part]) child hne
      exact ⟨x, by simp [hf, hx]⟩
    | none =>
      obtain ⟨x, hx⟩ := addAux_snd_isSome (part₂ :: rest) (done ++ [part])
        (FileNode.mk (String.intercalate "/" (done ++ [part])) part
          (String.intercalate "/" (done ++ [part])) .directory (some [])
          none none none none) hne
      exact ⟨x, by simp [hf, hx]⟩

theorem findByName_append_some {cs : List FileNode} {nm : String} {n' x : FileNode}
    (h : findByName cs nm = some n') :
    findByName (cs ++ [x]) nm = some n' := by
  unfold findByName at h ⊢
  rw [List.find?_append, h]
  rfl

/-- Replacing the first `nm`-named child with a same-named node that covers
it (preserves resolvability of descents) keeps every descent through the
list resolvable. -/
theorem resolvable_replace :
    ∀ (cs : List FileNode) (nm : String) (child c' : FileNode),
    findByName cs nm = some child → c'.name = child.name →
    (∀ q, (findAux child q).isSome = true → (findAux c' q).isSome = true) →
    ∀ (s : String) (qs : List String) (n' : FileNode),
      findByName cs s = some n' → (findAux n' qs).isSome = true →
      ∃ n'', findByName (replaceFirstByName cs nm c') s = some n'' ∧
        (findAux n'' qs).isSome = true
  | [], _, _, _ => by intro hfind _ _ _ _ _ h _; cases h
  | x :: tl, nm, child, c' => by
    intro hfind hname hcov s qs n' hs hq
    unfold findByName at hfind hs
    rw [List.find?_cons] at hfind hs
    unfold replaceFirstByName
    by_cases hx : x.name == nm
    · rw [hx] at hfind
      cases hfind
      rw [if_pos hx]
      by_cases hxs : x.name == s
      · rw [hxs] at hs
        cases hs
        refine ⟨c', ?_, hcov qs hq⟩
        show List.find? (fun c => c.name == s) (c' :: tl) = some c'
        rw [List.find?_cons]
        have hcs : (c'.name == s) = true := by
          rw [hname]
          exact hxs
        rw [hcs]
      · rw [Bool.not_eq_true] at hxs
        rw [hxs] at hs
        refine ⟨n', ?_, hq⟩
        show List.find? (fun c => c.name == s) (c' :: tl) = some n'
        rw [List.find?_cons]
        have hcs : (c'.name == s) = false := by
          rw [hname]
          exact hxs
        rw [hcs]
        exact hs
    · rw [Bool.not_eq_true] at hx
      rw [hx] at hfind
      rw [if_neg (by simp [hx])]
      by_cases hxs : x.name == s
      · rw [hxs] at hs
        cases hs
        refine ⟨x, ?_, hq⟩
        show List.find? (fun c => c.name == s) (x :: replaceFirstByName tl nm c') =
          some x
        rw [List.find?_cons, hxs]
      · rw [Bool.not_eq_true] at hxs
        rw [hxs] at hs
        obtain ⟨n'', h1, h2⟩ :=
          resolvable_replace tl nm child c' hfind hname hcov s qs n' hs hq
        refine ⟨n'', ?_, h2⟩
        show List.find? (fun c => c.name == s) (x :: replaceFirstByName tl nm c') =
          some n''
        rw [List.find?_cons, hxs]
        exact h1

/-- Adding a file anywhere keeps every previously-resolvable descent
resolvable. -/
theorem addAux_resolvable : ∀ (parts done : List String) (node : FileNode)
    (q : List String), (findAux node q).isSome = true →
    (findAux (addAux node done parts).1 q).isSome = true
  | [], _, _, _ => fun h => h
  | part :: rest, done, node, q => by
    intro h
    obtain ⟨i, n, p, t, cso, m, a, st, c⟩ := node
    cases q with
    | nil =>
      cases cso with
      | none =>
        cases hrest : rest.isEmpty
        all_goals
          unfold addAux
          simp only [hrest]
          rfl
      | some cs =>
        cases hrest : rest.isEmpty
        all_goals
          unfold addAux
          simp only [hrest]
          cases hf : findByName ((FileNode.mk i n p t (some cs) m a st c).children.getD []) part
          all_goals simp only [hf]; rfl
    | cons s qs =>
      cases cso with
      | none => exact Bool.noConfusion h
      | some cs =>
        replace h : (match findByName cs s with
          | none => none
          | some child => findAux child qs).isSome = true := h
        cases hs : findByName cs s with
        | none => rw [hs] at h; exact absurd h (by simp)
        | some n' =>
          rw [hs] at h
          have hgd : (FileNode.mk i n p t (some cs) m a st c).children.getD [] = cs := rfl
          unfold addAux
          rw [hgd]
          cases hf : findByName cs part with
          | some child =>
            by_cases hrest : rest.isEmpty
            · simp only [hf, hrest]
              show (findAux (FileNode.mk i n p t (some cs) m a st c) (s :: qs)).isSome = true
              show (match findByName cs s with
                | none => none
                | some child => findAux child qs).isSome = true
              rw [hs]
              exact h
            · simp only [hf, if_neg hrest]
              have hcname : child.name = part := by
                unfold findByName at hf
                simpa using List.find?_some hf
              have hrn : (addAux child (done ++ [part]) rest).1.name = child.name :=
                addAux_name rest (done ++ [part]) child
              obtain ⟨n'', h1, h2⟩ := resolvable_replace cs part child
                (addAux child (done ++ [part]) rest).1 hf (by rw [hrn])
                (fun q hq => addAux_resolvable rest (done ++ [part]) child q hq)
                s qs n' hs h
              show (match findByName (replaceFirstByName cs part
                  (addAux child (done ++ [part]) rest).1) s with
                | none => none
                | some child => findAux child qs).isSome = true
              rw [h1]
              exact h2
          | none =>
            by_cases hrest : rest.isEmpty
            · simp only [hf, hrest]
              show (match findByName (cs ++ [FileNode.mk
                  (String.intercalate "/" (done ++ [part])) part
                  (String.intercalate "/" (done ++ [part])) .file none none none none
                  (some (getFileColor part))]) s with
                | none => none
                | some child => findAux child qs).isSome = true
              rw [findByName_append_some hs]
              exact h
            · simp only [hf, if_neg hrest]
              show (match findByName (cs ++ [(addAux (FileNode.mk
                  (String.intercalate "/" (done ++ [part])) part
                  (String.intercalate "/" (done ++ [part])) .directory (some [])
                  none none none none) (done ++ [part]) rest).1]) s with
                | none => none
                | some child => findAux child qs).isSome = true
              rw [findByName_append_some hs]
              exact h

theorem findByName_append_none {cs : List FileNode} {nm : String} {x : FileNode}
    (h : findByName cs nm = none) (hx : x.name = nm) :
    findByName (cs ++ [x]) nm = some x := by
  unfold findByName at h ⊢
  rw [List.find?_append, h]
  show List.find? (fun c => c.name == nm) [x] = some x
  rw [List.find?_cons]
  have : (x.name == nm) = true := by simp [hx]
  rw [this]

theorem findAux_setChildren (node : FileNode) (l : List FileNode) (s : String)
    (qs : List String) :
    findAux (node.setChildren (some l)) (s :: qs) =
      match findByName l s with
      | none => none
      | some child => findAux child qs := by
  cases node
  rfl

/-- After `addAux`, the added path resolves. -/
theorem addAux_establishes : ∀ (parts done : List String) (node : FileNode),
    parts ≠ [] → (findAux (addAux node done parts).1 parts).isSome = true
  | [], _, _ => fun h => absurd rfl h
  | [part], done, node => by
    intro _
    unfold addAux
    cases hf : findByName (node.children.getD []) part with
    | some child =>
      simp only [hf]
      show (findAux (node.setChildren (some (node.children.getD []))) [part]).isSome =
        true
      rw [findAux_setChildren, hf]
      rfl
    | none =>
      simp only [hf]
      show (findAux (node.setChildren (some (node.children.getD [] ++ [FileNode.mk
          (String.intercalate "/" (done ++ [part])) part
          (String.intercalate "/" (done ++ [part])) .file none none none none
          (some (getFileColor part))]))) [part]).isSome = true
      rw [findAux_setChildren,
        @findByName_append_none (node.children.getD []) part
          (FileNode.mk (String.intercalate "/" (done ++ [part])) part
            (String.intercalate "/" (done ++ [part])) .file none none none none
            (some (getFileColor part))) hf rfl]
      rfl
  | part :: r2 :: rs, done, node => by
    intro _
    unfold addAux
    cases hf : findByName (node.children.getD []) part with
    | some child =>
      simp only [hf]
      show (findAux (node.setChildren (some (replaceFirstByName
          (node.children.getD []) part
          (addAux child (done ++ [part]) (r2 :: rs)).1))) (part :: r2 :: rs)).isSome =
        true
      rw [findAux_setChildren]
      have hcname : child.name = part := by
        unfold findByName at hf
        simpa using List.find?_some hf
      rw [findByName_replace_self (node.children.getD []) part child _ hf
        (by rw [addAux_name])]
      exact addAux_establishes (r2 :: rs) (done ++ [part]) child (by simp)
    | none =>
      simp only [hf]
      show (findAux (node.setChildren (some (node.children.getD [] ++
          [(addAux (FileNode.mk (String.intercalate "/" (done ++ [part])) part
            (String.intercalate "/" (done ++ [part])) .directory (some [])
            none none none none) (done ++ [part]) (r2 :: rs)).1]))) 
          (part :: r2 :: rs)).isSome = true
      rw [findAux_setChildren, findByName_append_none hf
        (by rw [addAux_name]; rfl)]
      exact addAux_establishes (r2 :: rs) (done ++ [part]) _ (by simp)

theorem findByName_strip (cs : List FileNode) (nm : String) :
    findByName (stripTagsList cs) nm = (findByName cs nm).map stripTags := by
  induction cs with
  | nil => rfl
  | cons hd tl ih =>
    show findByName (stripTags hd :: stripTagsList tl) nm = _
    unfold findByName at ih ⊢
    rw [List.find?_cons, List.find?_cons]
    by_cases h : hd.name == nm
    · have h' : ((stripTags hd).name == nm) = true := by
        rw [stripTags_name]
        exact h
      rw [h, h']
      rfl
    · rw [Bool.not_eq_true] at h
      have h' : ((stripTags hd).name == nm) = false := by
        rw [stripTags_name]
        exact h
      rw [h, h']
      exact ih

theorem findAux_strip : ∀ (q : List String) (t : FileNode),
    findAux (stripTags t) q = (findAux t q).map stripTags
  | [], t => rfl
  | s :: qs, t => by
    obtain ⟨i, n, p, ty, cs, m, a, st, c⟩ := t
    cases cs with
    | none => rfl
    | some l =>
      show (match findByName (stripTagsList l) s with
        | none => none
        | some child => findAux child qs) =
        Option.map stripTags (match findByName l s with
          | none => none
          | some child => findAux child qs)
      rw [findByName_strip]
      cases hf : findByName l s with
      | none => rfl
      | some child => exact findAux_strip qs child

theorem findAux_isSome_congr {t t' : FileNode} (h : stripTags t = stripTags t')
    (q : List String) : (findAux t q).isSome = (findAux t' q).isSome := by
  have heq : (findAux t q).map stripTags = (findAux t' q).map stripTags := by
    rw [← findAux_strip, ← findAux_strip, h]
  cases hx : findAux t q with
  | none =>
    cases hy : findAux t' q with
    | none => rfl
    | some v =>
      rw [hx, hy] at heq
      exact Option.noConfusion heq
  | some u =>
    cases hy : findAux t' q with
    | none =>
      rw [hx, hy] at heq
      exact Option.noConfusion heq
    | some v => rfl

/-- Adding a path that already resolves does not change the stripped tree. -/
theorem addAux_resolved_noop : ∀ (parts done : List String) (node : FileNode),
    (findAux node parts).isSome = true →
    stripTags (addAux node done parts).1 = stripTags node
  | [], _, _ => fun _ => rfl
  | part :: rest, done, node => by
    intro h
    obtain ⟨i, n, p, ty, cso, m, a, st, c⟩ := node
    cases cso with
    | none => exact Bool.noConfusion h
    | some cs =>
      replace h : (match findByName cs part with
        | none => none
        | some child => findAux child rest).isSome = true := h
      have hgd : (FileNode.mk i n p ty (some cs) m a st c).children.getD [] = cs := rfl
      unfold addAux
      rw [hgd]
      cases hf : findByName cs part with
      | none =>
        rw [hf] at h
        exact Bool.noConfusion h
      | some child =>
        rw [hf] at h
        cases hrest : rest with
        | nil =>
          simp only [hf, hrest]
          exact stripTags_setChildren_eq (FileNode.mk i n p ty (some cs) m a st c)
            cs cs rfl rfl
        | cons r2 rs =>
          rw [hrest] at h
          simp only [hf, hrest]
          refine stripTags_setChildren_eq (FileNode.mk i n p ty (some cs) m a st c)
            cs _ rfl ?_
          exact stripTagsList_replace cs part child _ hf
            (addAux_resolved_noop (r2 :: rs) (done ++ [part]) child h)

theorem addAux_snd_none {parts done : List String} {node : FileNode}
    (h : (addAux node done parts).2 = none) : parts = [] := by
  by_contra hne
  obtain ⟨x, hx⟩ := addAux_snd_isSome parts done node hne
  rw [h] at hx
  exact Option.noConfusion hx

theorem updateInTree_resolvable (f : FileNode → FileNode)
    (hf : ∀ x, stripTags (f x) = stripTags x) (parts : List String) (t : FileNode)
    (q : List String) (h : (findAux t q).isSome = true) :
    (findAux (updateInTree t parts f) q).isSome = true := by
  rw [findAux_isSome_congr (stripTags_updateInTree f hf parts t) q]
  exact h

/-- Any non-rename change keeps every resolvable descent resolvable. -/
theorem applyFileChange_resolvable (commit : Commit) (key : String)
    (st : FileNode × List String) (f : FileChange) (hnr : f.status ≠ .renamed)
    (q : List String) (h : (findAux st.1 q).isSome = true) :
    (findAux (applyFileChange commit key st f).1 q).isSome = true := by
  unfold applyFileChange
  cases hst : f.status with
  | renamed => exact absurd hst hnr
  | added =>
    cases hr : (addFileToTree st.1 f.filename).2 with
    | some x =>
      simp only [hr]
      exact updateInTree_resolvable _ (fun x => stripTags_stamp x _ _ _) _ _ q
        (addAux_resolvable (splitPath f.filename) [] st.1 q h)
    | none =>
      simp only [hr]
      exact addAux_resolvable (splitPath f.filename) [] st.1 q h
  | modified =>
    cases hfd : findFileInTree st.1 f.filename with
    | some x =>
      simp only [hfd]
      exact updateInTree_resolvable _ (fun x => stripTags_stamp x _ _ _) _ _ q h
    | none =>
      simp only [hfd]
      cases hr : (addFileToTree st.1 f.filename).2 with
      | some x =>
        simp only [hr]
        exact updateInTree_resolvable _ (fun x => stripTags_stamp x _ _ _) _ _ q
          (addAux_resolvable (splitPath f.filename) [] st.1 q h)
      | none =>
        simp only [hr]
        exact addAux_resolvable (splitPath f.filename) [] st.1 q h
  | removed =>
    cases hfd : findFileInTree st.1 f.filename with
    | some x =>
      simp only [hfd]
      exact updateInTree_resolvable _ (fun x => stripTags_setStatus x _) _ _ q h
    | none =>
      simp only [hfd]
      exact h

/-- An `added` or `modified` change leaves its own path resolvable. -/
theorem applyFileChange_establishes (commit : Commit) (key : String)
    (st : FileNode × List String) (f : FileChange)
    (hadd : f.status = .added ∨ f.status = .modified) :
    (findAux (applyFileChange commit key st f).1 (splitPath f.filename)).isSome =
      true := by
  unfold applyFileChange
  rcases hadd with hst | hst
  all_goals rw [hst]
  · cases hr : (addFileToTree st.1 f.filename).2 with
    | some x =>
      have hpne : splitPath f.filename ≠ [] := by
        intro hp
        have h0 : (addAux st.1 [] (splitPath f.filename)).2 = some x := hr
        rw [hp] at h0
        exact Option.noConfusion h0
      simp only [hr]
      refine updateInTree_resolvable _ (fun x => stripTags_stamp x _ _ _) _ _ _ ?_
      exact addAux_establishes (splitPath f.filename) [] st.1 hpne
    | none =>
      simp only [hr]
      have hp : splitPath f.filename = [] := addAux_snd_none hr
      rw [hp]
      rfl
  · cases hfd : findFileInTree st.1 f.filename with
    | some x =>
      simp only [hfd]
      refine updateInTree_resolvable _ (fun x => stripTags_stamp x _ _ _) _ _ _ ?_
      show (findAux st.1 (splitPath f.filename)).isSome = true
      unfold findFileInTree at hfd
      rw [hfd]
      rfl
    | none =>
      simp only [hfd]
      cases hr : (addFileToTree st.1 f.filename).2 with
      | some x =>
        have hpne : splitPath f.filename ≠ [] := by
          intro hp
          have h0 : (addAux st.1 [] (splitPath f.filename)).2 = some x := hr
          rw [hp] at h0
          exact Option.noConfusion h0
        simp only [hr]
        refine updateInTree_resolvable _ (fun x => stripTags_stamp x _ _ _) _ _ _ ?_
        exact addAux_establishes (splitPath f.filename) [] st.1 hpne
      | none =>
        simp only [hr]
        have hp : splitPath f.filename = [] := addAux_snd_none hr
        rw [hp]
        rfl

theorem foldl_resolvable (commit : Commit) (key : String) :
    ∀ (files : List FileChange) (st : FileNode × List String),
    (∀ f ∈ files, f.status ≠ .renamed) → ∀ (q : List String),
    (findAux st.1 q).isSome = true →
    (findAux ((files.foldl (applyFileChange commit key) st).1) q).isSome = true := by
  intro files
  induction files with
  | nil => intro st _ q h; exact h
  | cons g rest ih =>
    intro st hnr q h
    rw [List.foldl_cons]
    exact ih _ (fun f hf => hnr f (List.mem_cons_of_mem _ hf)) q
      (applyFileChange_resolvable commit key st g (hnr g (by simp)) q h)

/-- After one full pass of a rename-free commit, every `added`/`modified`
path of the commit resolves in the resulting tree. -/
theorem foldl_establishes (commit : Commit) (key : String) :
    ∀ (files : List FileChange) (st : FileNode × List String),
    (∀ f ∈ files, f.status ≠ .renamed) →
    ∀ f ∈ files, (f.status = .added ∨ f.status = .modified) →
    (findAux ((files.foldl (applyFileChange commit key) st).1)
      (splitPath f.filename)).isSome = true := by
  intro files
  induction files with
  | nil => intro st _ f hf; cases hf
  | cons g rest ih =>
    intro st hnr f hf hadd
    rw [List.foldl_cons]
    rw [List.mem_cons] at hf
    rcases hf with hf | hf
    · subst hf
      exact foldl_resolvable commit key rest _
        (fun x hx => hnr x (List.mem_cons_of_mem _ hx)) _
        (applyFileChange_establishes commit key st f hadd)
    · exact ih _ (fun x hx => hnr x (List.mem_cons_of_mem _ hx)) f hf hadd

/-- A non-rename change whose path (when it is an `added`/`modified`
change) already resolves leaves the stripped tree unchanged. -/
theorem applyFileChange_strip_noop (commit : Commit) (key : String)
    (st : FileNode × List String) (f : FileChange) (hnr : f.status ≠ .renamed)
    (hres : f.status = .added ∨ f.status = .modified →
      (findAux st.1 (splitPath f.filename)).isSome = true) :
    stripTags (applyFileChange commit key st f).1 = stripTags st.1 := by
  unfold applyFileChange
  cases hst : f.status with
  | renamed => exact absurd hst hnr
  | added =>
    have hr0 : (findAux st.1 (splitPath f.filename)).isSome = true :=
      hres (Or.inl hst)
    cases hr : (addFileToTree st.1 f.filename).2 with
    | some x =>
      simp only [hr]
      rw [stripTags_updateInTree _ (fun x => stripTags_stamp x _ _ _)]
      exact addAux_resolved_noop (splitPath f.filename) [] st.1 hr0
    | none =>
      simp only [hr]
      exact addAux_resolved_noop (splitPath f.filename) [] st.1 hr0
  | modified =>
    cases hfd : findFileInTree st.1 f.filename with
    | some x =>
      simp only [hfd]
      exact stripTags_updateInTree _ (fun x => stripTags_stamp x _ _ _) _ _
    | none =>
      have hr0 : (findAux st.1 (splitPath f.filename)).isSome = true :=
        hres (Or.inr hst)
      unfold findFileInTree at hfd
      rw [hfd] at hr0
      exact Bool.noConfusion hr0
  | removed =>
    cases hfd : findFileInTree st.1 f.filename with
    | some x =>
      simp only [hfd]
      exact stripTags_updateInTree _ (fun x => stripTags_setStatus x _) _ _
    | none =>
      simp only [hfd]

theorem foldl_strip_noop (commit : Commit) (key : String) :
    ∀ (files : List FileChange) (t t1 : FileNode) (acc : List String),
    (∀ f ∈ files, f.status ≠ .renamed) →
    (∀ f ∈ files, f.status = .added ∨ f.status = .modified →
      (findAux t1 (splitPath f.filename)).isSome = true) →
    stripTags t = stripTags t1 →
    stripTags ((files.foldl (applyFileChange commit key) (t, acc)).1) =
      stripTags t1 := by
  intro files
  induction files with
  | nil => intro t t1 acc _ _ h; exact h
  | cons g rest ih =>
    intro t t1 acc hnr hres hstrip
    rw [List.foldl_cons]
    have hstep : stripTags (applyFileChange commit key (t, acc) g).1 =
        stripTags t1 := by
      rw [applyFileChange_strip_noop commit key (t, acc) g (hnr g (by simp))
        (fun hm => by
          rw [findAux_isSome_congr hstrip]
          exact hres g (by simp) hm)]
      exact hstrip
    exact ih (applyFileChange commit key (t, acc) g).1 t1
      (applyFileChange commit key (t, acc) g).2
      (fun f hf => hnr f (List.mem_cons_of_mem _ hf))
      (fun f hf hadd => hres f (List.mem_cons_of_mem _ hf) hadd) hstep

/-- C5, corrected: for rename-free commits, re-applying the same commit to
its own result changes nothing structural — the stripped tree (paths,
parent/child structure, ids, names, types, colors) after the second apply
equals the one after the first; only the transient stamps may differ. The
claim as stated, covering `renamed` entries too, is refuted by
`c5_counterexample`. -/
theorem c5_rename_free_reapply (root : FileNode) (commit : Commit)
    (authors authors' : List (String × Author))
    (hnr : ∀ f ∈ commit.files, f.status ≠ .renamed) :
    stripTags (applyCommitToTree
        (applyCommitToTree root commit authors).tree commit authors').tree =
      stripTags (applyCommitToTree root commit authors).tree := by
  show stripTags ((commit.files.foldl (applyFileChange commit
      (if commit.author.email == "" then commit.author.name else commit.author.email))
      ((commit.files.foldl (applyFileChange commit
        (if commit.author.email == "" then commit.author.name else commit.author.email))
        (root, [])).1, [])).1) =
    stripTags ((commit.files.foldl (applyFileChange commit
      (if commit.author.email == "" then commit.author.name else commit.author.email))
      (root, [])).1)
  exact foldl_strip_noop commit _ commit.files _ _ [] hnr
    (fun f hf hadd => foldl_establishes commit _ commit.files (root, []) hnr f hf hadd)
    rfl

theorem c5_witness :
    (∀ f ∈ ([(⟨"x", .added, 0, 0, none⟩ : FileChange)]), f.status ≠ .renamed) ∧
    stripTags (applyCommitToTree
        (applyCommitToTree createFileTree
          (⟨"s", "m", ⟨"n", "e", none, none, "d"⟩,
            [⟨"x", .added, 0, 0, none⟩]⟩ : Commit) []).tree
        (⟨"s", "m", ⟨"n", "e", none, none, "d"⟩,
          [⟨"x", .added, 0, 0, none⟩]⟩ : Commit) []).tree =
      stripTags (applyCommitToTree createFileTree
        (⟨"s", "m", ⟨"n", "e", none, none, "d"⟩,
          [⟨"x", .added, 0, 0, none⟩]⟩ : Commit) []).tree :=
  ⟨by decide,
    c5_rename_free_reapply createFileTree
      (⟨"s", "m", ⟨"n", "e", none, none, "d"⟩,
        [⟨"x", .added, 0, 0, none⟩]⟩ : Commit) [] [] (by decide)⟩

/-! ## The cleanup invariant (C6) -/

theorem cleanTree_eq : ∀ (x : FileNode),
    cleanTree x = (!cleanupEmptyDir x && rootClean x)
  | .mk i nm p t cs m a s c => by cases cs <;> rfl

theorem rootClean_setChildren (node : FileNode) (l : List FileNode) :
    rootClean (node.setChildren (some l)) = cleanList l := by
  cases node
  rfl

theorem rootClean_parts : ∀ (node : FileNode) (cs : List FileNode),
    node.children = some cs → rootClean node = true → cleanList cs = true
  | .mk i nm p t cso m a s c, cs => by
    intro hcs h
    cases hcs
    exact h

theorem idsOk_parts : ∀ (node : FileNode) (cs : List FileNode),
    node.children = some cs → idsOk node = true →
    (cs.map FileNode.id).Nodup ∧ idsOkList cs = true
  | .mk i nm p t cso m a s c, cs => by
    intro hcs h
    cases hcs
    have h2 := (Bool.and_eq_true _ _).mp
      (show (decide ((cs.map FileNode.id).Nodup) && idsOkList cs) = true from h)
    exact ⟨of_decide_eq_true h2.1, h2.2⟩

theorem cleanList_mem : ∀ {l : List FileNode}, cleanList l = true →
    ∀ x ∈ l, cleanTree x = true := by
  intro l
  induction l with
  | nil => intro _ x hx; cases hx
  | cons hd tl ih =>
    intro h x hx
    have h' := (Bool.and_eq_true _ _).mp
      (show (cleanTree hd && cleanList tl) = true from h)
    rw [List.mem_cons] at hx
    rcases hx with hx | hx
    · subst hx
      exact h'.1
    · exact ih h'.2 x hx

theorem idsOkList_mem : ∀ {l : List FileNode}, idsOkList l = true →
    ∀ x ∈ l, idsOk x = true := by
  intro l
  induction l with
  | nil => intro _ x hx; cases hx
  | cons hd tl ih =>
    intro h x hx
    have h' := (Bool.and_eq_true _ _).mp
      (show (idsOk hd && idsOkList tl) = true from h)
    rw [List.mem_cons] at hx
    rcases hx with hx | hx
    · subst hx
      exact h'.1
    · exact ih h'.2 x hx

theorem cleanList_eraseIdx : ∀ (l : List FileNode) (i : Nat),
    cleanList l = true → cleanList (l.eraseIdx i) = true := by
  intro l
  induction l with
  | nil => intro i h; exact h
  | cons hd tl ih =>
    intro i h
    have h' := (Bool.and_eq_true _ _).mp
      (show (cleanTree hd && cleanList tl) = true from h)
    cases i with
    | zero => exact h'.2
    | succ j =>
      show (cleanTree hd && cleanList (tl.eraseIdx j)) = true
      rw [h'.1, ih j h'.2]
      rfl

theorem cleanList_replace : ∀ (cs : List FileNode) (nm : String) (c' : FileNode),
    cleanList cs = true → cleanTree c' = true →
    cleanList (replaceFirstByName cs nm c') = true
  | [], _, _ => fun h _ => h
  | x :: tl, nm, c' => by
    intro h hc
    have h' := (Bool.and_eq_true _ _).mp
      (show (cleanTree x && cleanList tl) = true from h)
    unfold replaceFirstByName
    by_cases hx : x.name == nm
    · rw [if_pos hx]
      show (cleanTree c' && cleanList tl) = true
      rw [hc, h'.2]
      rfl
    · rw [if_neg hx]
      show (cleanTree x && cleanList (replaceFirstByName tl nm c')) = true
      rw [h'.1, cleanList_replace tl nm c' h'.2 hc]
      rfl

/-- Splicing out (by `id`) the just-replaced child from an otherwise clean
sibling list leaves a clean list, provided sibling ids are distinct. -/
theorem cleanList_erase_replace :
    ∀ (cs : List FileNode) (nm : String) (child c' : FileNode),
    findByName cs nm = some child → c'.id = child.id →
    (cs.map FileNode.id).Nodup → cleanList cs = true →
    cleanList (eraseFirstById (replaceFirstByName cs nm c') c'.id) = true
  | [], _, _, _ => by intro h _ _ _; cases h
  | x :: tl, nm, child, c' => by
    intro hfind hid hnd h
    have h' := (Bool.and_eq_true _ _).mp
      (show (cleanTree x && cleanList tl) = true from h)
    unfold findByName at hfind
    rw [List.find?_cons] at hfind
    unfold replaceFirstByName
    by_cases hx : x.name == nm
    · rw [hx] at hfind
      cases hfind
      rw [if_pos hx]
      show cleanList (eraseFirstById (c' :: tl) c'.id) = true
      unfold eraseFirstById
      rw [if_pos (by simp)]
      exact h'.2
    · rw [Bool.not_eq_true] at hx
      rw [hx] at hfind
      have hmem : child ∈ tl := List.mem_of_find?_eq_some hfind
      simp only [List.map_cons, List.nodup_cons] at hnd
      have hxid : x.id ≠ c'.id := by
        rw [hid]
        intro he
        exact hnd.1 (he ▸ List.mem_map_of_mem FileNode.id hmem)
      rw [if_neg (by simp [hx])]
      show cleanList (eraseFirstById (x :: replaceFirstByName tl nm c') c'.id) = true
      unfold eraseFirstById
      rw [if_neg (by simp [hxid])]
      show (cleanTree x &&
        cleanList (eraseFirstById (replaceFirstByName tl nm c') c'.id)) = true
      rw [h'.1, cleanList_erase_replace tl nm child c' hfind hid hnd.2 h'.2]
      rfl

theorem removeAux_shape : ∀ (parts : List String) (node : FileNode),
    (removeAux node parts).1 = node ∨
    ∃ l, (removeAux node parts).1 = node.setChildren (some l)
  | [], node => Or.inl rfl
  | [fileName], node => by
    unfold removeAux
    cases hcs : node.children with
    | none => exact Or.inl rfl
    | some cs =>
      cases hidx : findIdxByName cs fileName with
      | none =>
        simp only [hidx]
        exact Or.inl trivial
      | some i =>
        simp only [hidx]
        exact Or.inr ⟨cs.eraseIdx i, rfl⟩
  | part :: p2 :: rest, node => by
    unfold removeAux
    cases hcs : node.children with
    | none => exact Or.inl rfl
    | some cs =>
      cases hf : findByName cs part with
      | none =>
        simp only [hf]
        exact Or.inl trivial
      | some child =>
        simp only [hf]
        by_cases hr : (removeAux child (p2 :: rest)).2
        · rw [if_pos hr]
          exact Or.inr ⟨_, rfl⟩
        · rw [if_neg hr]
          exact Or.inl rfl

theorem removeAux_root_fields (parts : List String) (node : FileNode) :
    (removeAux node parts).1.id = node.id ∧
    (removeAux node parts).1.name = node.name ∧
    (removeAux node parts).1.path = node.path ∧
    (removeAux node parts).1.type = node.type := by
  rcases removeAux_shape parts node with h | ⟨l, h⟩ <;> rw [h]
  · exact ⟨rfl, rfl, rfl, rfl⟩
  · cases node
    exact ⟨rfl, rfl, rfl, rfl⟩

/-- The cleanup pass of `removeFileFromTree`, level by level: a successful
removal from a tree with no empty directories below the node leaves no
empty directory below it (the node itself may have been emptied; its
caller erases it). -/
theorem removeAux_clean : ∀ (parts : List String) (node : FileNode),
    idsOk node = true → rootClean node = true →
    (removeAux node parts).2 = true →
    rootClean (removeAux node parts).1 = true
  | [], node => by
    intro _ _ hsucc
    exact Bool.noConfusion hsucc
  | [fileName], node => by
    intro hids hclean hsucc
    unfold removeAux at hsucc ⊢
    cases hcs : node.children with
    | none =>
      simp only [hcs] at hsucc
      exact Bool.noConfusion hsucc
    | some cs =>
      simp only [hcs] at hsucc ⊢
      cases hidx : findIdxByName cs fileName with
      | none =>
        simp only [hidx] at hsucc
        exact Bool.noConfusion hsucc
      | some i =>
        simp only [hidx]
        rw [rootClean_setChildren]
        exact cleanList_eraseIdx cs i (rootClean_parts node cs hcs hclean)
  | part :: p2 :: rest, node => by
    intro hids hclean hsucc
    unfold removeAux at hsucc ⊢
    cases hcs : node.children with
    | none =>
      simp only [hcs] at hsucc
      exact Bool.noConfusion hsucc
    | some cs =>
      simp only [hcs] at hsucc ⊢
      cases hf : findByName cs part with
      | none =>
        simp only [hf] at hsucc
        exact Bool.noConfusion hsucc
      | some child =>
        simp only [hf] at hsucc ⊢
        by_cases hr : (removeAux child (p2 :: rest)).2
        · rw [if_pos hr]
          have hmem : child ∈ cs := by
            unfold findByName at hf
            exact List.mem_of_find?_eq_some hf
          have hcl : cleanList cs = true := rootClean_parts node cs hcs hclean
          have hct : cleanTree child = true := cleanList_mem hcl child hmem
          have hio := idsOk_parts node cs hcs hids
          have hchid : idsOk child = true := idsOkList_mem hio.2 child hmem
          have hchclean : rootClean child = true := by
            have he := cleanTree_eq child
            rw [hct] at he
            exact ((Bool.and_eq_true _ _).mp he.symm).2
          have hrec : rootClean (removeAux child (p2 :: rest)).1 = true :=
            removeAux_clean (p2 :: rest) child hchid hchclean hr
          have hid' : (removeAux child (p2 :: rest)).1.id = child.id :=
            (removeAux_root_fields (p2 :: rest) child).1
          show rootClean (node.setChildren (some
            (if cleanupEmptyDir (removeAux child (p2 :: rest)).1
             then eraseFirstById
               (replaceFirstByName cs part (removeAux child (p2 :: rest)).1)
               (removeAux child (p2 :: rest)).1.id
             else replaceFirstByName cs part (removeAux child (p2 :: rest)).1))) = true
          rw [rootClean_setChildren]
          by_cases hemp : cleanupEmptyDir (removeAux child (p2 :: rest)).1
          · rw [if_pos hemp]
            exact cleanList_erase_replace cs part child _ hf hid' hio.1 hcl
          · rw [if_neg hemp]
            refine cleanList_replace cs part _ hcl ?_
            rw [cleanTree_eq]
            have hne : cleanupEmptyDir (removeAux child (p2 :: rest)).1 = false := by
              revert hemp
              cases cleanupEmptyDir (removeAux child (p2 :: rest)).1 <;> simp
            rw [hne, hrec]
            rfl
        · rw [if_neg hr] at hsucc
          exact Bool.noConfusion hsucc

/-- C6: on a tree with no empty non-root directory and pairwise-distinct
sibling ids, a successful `removeFileFromTree` leaves no empty non-root
directory (emptied ancestors are cascade-deleted), and the root node
itself survives with its id, name, path and type intact. -/
theorem c6_cleanup_no_empty_dirs (root : FileNode) (filepath : String)
    (hids : idsOk root = true) (hclean : rootClean root = true)
    (hsucc : (removeFileFromTree root filepath).2 = true) :
    rootClean (removeFileFromTree root filepath).1 = true ∧
    (removeFileFromTree root filepath).1.id = root.id ∧
    (removeFileFromTree root filepath).1.name = root.name ∧
    (removeFileFromTree root filepath).1.path = root.path ∧
    (removeFileFromTree root filepath).1.type = root.type :=
  ⟨removeAux_clean (splitPath filepath) root hids hclean hsucc,
    removeAux_root_fields (splitPath filepath) root⟩

theorem c6_witness :
    idsOk (addFileToTree createFileTree "a/a").1 = true ∧
    rootClean (addFileToTree createFileTree "a/a").1 = true ∧
    (removeFileFromTree (addFileToTree createFileTree "a/a").1 "a/a").2 = true ∧
    (rootClean (removeFileFromTree (addFileToTree createFileTree "a/a").1 "a/a").1 =
        true ∧
      (removeFileFromTree (addFileToTree createFileTree "a/a").1 "a/a").1.id =
        (addFileToTree createFileTree "a/a").1.id ∧
      (removeFileFromTree (addFileToTree createFileTree "a/a").1 "a/a").1.name =
        (addFileToTree createFileTree "a/a").1.name ∧
      (removeFileFromTree (addFileToTree createFileTree "a/a").1 "a/a").1.path =
        (addFileToTree createFileTree "a/a").1.path ∧
      (removeFileFromTree (addFileToTree createFileTree "a/a").1 "a/a").1.type =
        (addFileToTree createFileTree "a/a").1.type) :=
  ⟨by decide, by decide, by decide,
    c6_cleanup_no_empty_dirs (addFileToTree createFileTree "a/a").1 "a/a"
      (by decide) (by decide) (by decide)⟩
